import Mathlib

/-!
A verification development for the pr-review-agent repository.

The TypeScript sources are shallowly embedded: strings are `List Char`,
JavaScript numbers that only ever hold non-negative integers are `Nat`,
and each embedded function mirrors the control flow of its source
(`SkillLoader.matchesPattern`, `SkillLoader.matchSkills`,
`ContextBuilder.build` / `ContextBuilder.truncateDiff`,
`GitHubAdapter.parseDiff` / `GitHubAdapter.parseHunks`,
`parseReviewResponse` / `detectSeverity` of the LLM backends,
`ReviewEngine.review` post-processing, and `JsonFormatter.format`).

JavaScript regular expressions are embedded as deterministic matchers that
are extensionally equal to the backtracking source regexes on all inputs;
where a regex pattern is analysed, the accompanying comment records the
backtracking argument.  JavaScript's `String.prototype.toLowerCase` and the
regex `\s` class are modelled on the ASCII range (all the keywords and
markers the code matches against are ASCII).
-/

/-! ## Character and string utilities (JS string primitives) -/

/-- JS regex `\s` on the ASCII range: space, tab, LF, VT, FF, CR. -/
def isWsChar (c : Char) : Bool :=
  c = ' ' || c = '\t' || c = '\n' || c = '\x0b' || c = '\x0c' || c = '\r'

/-- JS line terminators (what the regex `.` refuses and multiline `^` follows). -/
def isLineTerm (c : Char) : Bool :=
  c = '\n' || c = '\r' || c = ' ' || c = ' '

/-- `String.prototype.toLowerCase`, ASCII range. -/
def lowerChar (c : Char) : Char := c.toLower

def lowerStr (s : List Char) : List Char := s.map lowerChar

/-- ASCII decimal digit test (JS regex `\d`). -/
def isDigitChar (c : Char) : Bool := '0' ≤ c && c ≤ '9'

/-- Numeric value of a digit string (the integer `parseInt` returns on an
all-digit input; the empty list gives 0, matching `parseInt('') || 0`). -/
def natOfDigits (ds : List Char) : Nat :=
  ds.foldl (fun a c => a * 10 + (c.toNat - 48)) 0

/-- `a.startsWith b` on char lists. -/
def listStartsWith : List Char → List Char → Bool
  | _, [] => true
  | [], _ :: _ => false
  | c :: s, d :: t => c = d && listStartsWith s t

/-- Case-insensitive `startsWith` (how a JS regex with the `i` flag compares
a literal at a position). -/
def startsWithCI (s pat : List Char) : Bool :=
  listStartsWith (lowerStr s) (lowerStr pat)

/-- `hay.includes(needle)`: some contiguous run of `hay` equals `needle`. -/
def containsSub (hay needle : List Char) : Bool :=
  match hay with
  | [] => listStartsWith [] needle
  | _ :: t => listStartsWith hay needle || containsSub t needle

/-- `String.prototype.trim`: strip `\s` from both ends. -/
def trimStr (s : List Char) : List Char :=
  ((s.dropWhile (isWsChar ·)).reverse.dropWhile (isWsChar ·)).reverse

/-! ## Core data model (src/types.ts) -/

inductive Severity | info | warning | error
deriving DecidableEq, Repr

inductive Verdict | approve | request_changes | comment
deriving DecidableEq, Repr

inductive Priority | low | medium | high
deriving DecidableEq, Repr

/-- `priorityOrder = { high: 3, medium: 2, low: 1 }` (skills/loader.ts). -/
def priorityOrder : Priority → Nat
  | .high => 3
  | .medium => 2
  | .low => 1

structure Skill where
  name : List Char
  description : List Char
  triggers : List (List Char)
  priority : Priority
  content : List Char
deriving DecidableEq, Repr

structure ReviewComment where
  id : Option (List Char) := none
  path : List Char
  line : Nat
  body : List Char
  severity : Severity
  suggestion : Option (List Char) := none
deriving DecidableEq, Repr

structure CodeSuggestion where
  path : List Char
  line : Nat
  oldCode : List Char
  newCode : List Char
  description : List Char
deriving DecidableEq, Repr

structure ReviewResult where
  summary : List Char
  comments : List ReviewComment
  suggestions : List CodeSuggestion
  verdict : Verdict
deriving DecidableEq, Repr

/-! ## Severity inference (llm/ollama.ts and llm/claude.ts, `detectSeverity`) -/

/-- `detectSeverity` of both LLM backends: lowercase the body, danger
keywords first, then soft-recommendation keywords, else info. -/
def detectSeverity (body : List Char) : Severity :=
  let lowerBody := lowerStr body
  if containsSub lowerBody "security".data || containsSub lowerBody "vulnerability".data
      || containsSub lowerBody "critical".data then .error
  else if containsSub lowerBody "should".data || containsSub lowerBody "consider".data
      || containsSub lowerBody "might".data then .warning
  else .info

/-- A keyword occurs in the lowercased body as a contiguous substring. -/
def KeywordIn (body : List Char) (kw : String) : Prop :=
  ∃ pre post, lowerStr body = pre ++ kw.data ++ post

/-- Danger keywords of `detectSeverity`. -/
def DangerIn (body : List Char) : Prop :=
  KeywordIn body "security" ∨ KeywordIn body "vulnerability" ∨ KeywordIn body "critical"

/-- Soft-recommendation keywords of `detectSeverity`. -/
def SoftIn (body : List Char) : Prop :=
  KeywordIn body "should" ∨ KeywordIn body "consider" ∨ KeywordIn body "might"

/-! ## Diff data model and truncation (types.ts, context/builder `truncateDiff`) -/

inductive FileStatus | added | modified | deleted | renamed
deriving DecidableEq, Repr

structure DiffHunk where
  oldStart : Nat
  oldLines : Nat
  newStart : Nat
  newLines : Nat
  content : List Char
deriving DecidableEq, Repr

structure FileDiff where
  path : List Char
  oldPath : Option (List Char) := none
  status : FileStatus
  additions : Nat
  deletions : Nat
  hunks : List DiffHunk
deriving DecidableEq, Repr

structure Diff where
  files : List FileDiff
  additions : Nat
  deletions : Nat
  changedFiles : Nat
deriving DecidableEq, Repr

/-- The fixed truncation marker text of `ContextBuilder.truncateDiff`. -/
def truncationMarker : List Char := "... [Truncated - file too large]".data

/-- The sentinel hunk `truncateDiff` substitutes for an overbudget file. -/
def markerHunk : DiffHunk :=
  { oldStart := 0, oldLines := 0, newStart := 0, newLines := 0, content := truncationMarker }

/-- `file.hunks.reduce((sum, h) => sum + h.content.length, 0)`. -/
def fileSize (f : FileDiff) : Nat := (f.hunks.map (·.content.length)).sum

/-- Total character count of the hunk contents of a file list. -/
def sizeSum (fs : List FileDiff) : Nat := (fs.map fileSize).sum

/-- An overbudget file as `truncateDiff` emits it: header kept, hunks replaced
by the single sentinel hunk. -/
def markFile (f : FileDiff) : FileDiff := { f with hunks := [markerHunk] }

/-- The accumulator loop of `ContextBuilder.truncateDiff`: `currentSize` is the
running total; the first file that would exceed the budget is emitted as its
marker form and the loop breaks. -/
def truncGo (maxDiffSize : Nat) : Nat → List FileDiff → List FileDiff
  | _, [] => []
  | currentSize, f :: fs =>
    if maxDiffSize < currentSize + fileSize f then [markFile f]
    else f :: truncGo maxDiffSize (currentSize + fileSize f) fs

namespace ContextBuilder

/-- `ContextBuilder.truncateDiff` (context/builder): `this.config.maxDiffSize`
is passed explicitly. -/
def truncateDiff (maxDiffSize : Nat) (diff : Diff) : Diff :=
  let truncatedFiles := truncGo maxDiffSize 0 diff.files
  { diff with files := truncatedFiles, changedFiles := truncatedFiles.length }

end ContextBuilder

/-! ## Glob pattern matching (skills/loader.ts, `SkillLoader.matchesPattern`)

The source builds a regex string from the glob by textual replacement —
`**` → `.*`, `*` → `[^/]*`, `?` → `.` — and runs `new RegExp(regex).test(filePath)`
(no anchors).  A character of the pattern that none of the replacements touch
reaches the regex engine verbatim; in particular a literal `.` in the pattern
becomes the regex any-character class.  The embedding translates the pattern
into a list of regex atoms; translation is partial, returning `none` on the
regex metacharacters the replacement never produces and the repo's skill
files never use (backslash, anchors, `+`, parens, brackets, braces, `|`),
whose JS-regex behaviour is outside the modelled fragment. -/

inductive GAtom
  | lit (c : Char)
  | anyCh
  | starNoSlash
  | starAny
deriving DecidableEq, Repr

/-- Characters that are their own regex literal (everything except the
metacharacters; `*`, `?`, `.` are consumed by the translation first). -/
def isRegexPlain (c : Char) : Bool :=
  !(c = '\\' || c = '^' || c = '$' || c = '+' || c = '(' || c = ')'
    || c = '\x5b' || c = '\x5d' || c = '\x7b' || c = '\x7d' || c = '|')

/-- The glob-to-regex translation of `matchesPattern`, as a regex atom list.
Follows the source's replacement order: `**` pairs first (global leftmost,
so `***` is `**` then `*`), then `*`, then `?`; a literal `.` passes through
as the regex dot. -/
def globTranslate : List Char → Option (List GAtom)
  | [] => some []
  | '*' :: '*' :: rest => (globTranslate rest).map (GAtom.starAny :: ·)
  | '*' :: rest => (globTranslate rest).map (GAtom.starNoSlash :: ·)
  | '?' :: rest => (globTranslate rest).map (GAtom.anyCh :: ·)
  | '.' :: rest => (globTranslate rest).map (GAtom.anyCh :: ·)
  | c :: rest =>
    if isRegexPlain c then (globTranslate rest).map (GAtom.lit c :: ·) else none

/-- Backtracking regex matcher: does an atom list match some prefix of `s`?
(The JS regex `.` refuses line terminators; the class `[^/]*` accepts them.)
Fuel-indexed for structural recursion; every call site supplies enough fuel. -/
def gmatchAux : Nat → List GAtom → List Char → Bool
  | 0, _, _ => false
  | _ + 1, [], _ => true
  | fuel + 1, .lit c :: as, s =>
    match s with
    | [] => false
    | x :: t => x = c && gmatchAux fuel as t
  | fuel + 1, .anyCh :: as, s =>
    match s with
    | [] => false
    | x :: t => !(isLineTerm x) && gmatchAux fuel as t
  | fuel + 1, .starNoSlash :: as, s =>
    gmatchAux fuel as s ||
      (match s with
       | [] => false
       | x :: t => !(x = '/') && gmatchAux fuel (GAtom.starNoSlash :: as) t)
  | fuel + 1, .starAny :: as, s =>
    gmatchAux fuel as s ||
      (match s with
       | [] => false
       | x :: t => !(isLineTerm x) && gmatchAux fuel (GAtom.starAny :: as) t)

/-- Match at the start of `s` (atoms may consume a proper prefix). -/
def gmatch (as : List GAtom) (s : List Char) : Bool :=
  gmatchAux (as.length + s.length + 1) as s

/-- `RegExp.prototype.test`: try a match at every start position. -/
def regexTestAux (as : List GAtom) : List Char → Bool
  | [] => gmatch as []
  | s@(_ :: t) => gmatch as s || regexTestAux as t

/-- Anchored variant: the atom list must consume the whole of `s`. -/
def gmatchFullAux : Nat → List GAtom → List Char → Bool
  | 0, _, _ => false
  | _ + 1, [], s => s.isEmpty
  | fuel + 1, .lit c :: as, s =>
    match s with
    | [] => false
    | x :: t => x = c && gmatchFullAux fuel as t
  | fuel + 1, .anyCh :: as, s =>
    match s with
    | [] => false
    | x :: t => !(isLineTerm x) && gmatchFullAux fuel as t
  | fuel + 1, .starNoSlash :: as, s =>
    gmatchFullAux fuel as s ||
      (match s with
       | [] => false
       | x :: t => !(x = '/') && gmatchFullAux fuel (GAtom.starNoSlash :: as) t)
  | fuel + 1, .starAny :: as, s =>
    gmatchFullAux fuel as s ||
      (match s with
       | [] => false
       | x :: t => !(isLineTerm x) && gmatchFullAux fuel (GAtom.starAny :: as) t)

/-- The whole string `s` satisfies the translated pattern. -/
def gmatchFull (as : List GAtom) (s : List Char) : Bool :=
  gmatchFullAux (as.length + s.length + 1) as s

/-- The regex language of an atom list, declaratively: `GMatches as s` holds
when `s` is exactly a word the atoms generate. -/
def GMatches : List GAtom → List Char → Prop
  | [], s => s = []
  | .lit c :: as, s => ∃ t, s = c :: t ∧ GMatches as t
  | .anyCh :: as, s => ∃ x t, s = x :: t ∧ isLineTerm x = false ∧ GMatches as t
  | .starNoSlash :: as, s => ∃ w t, s = w ++ t ∧ (∀ x ∈ w, x ≠ '/') ∧ GMatches as t
  | .starAny :: as, s => ∃ w t, s = w ++ t ∧ (∀ x ∈ w, isLineTerm x = false) ∧ GMatches as t

namespace SkillLoader

/-- `SkillLoader.matchesPattern`: translate the glob and run the unanchored
regex test.  On a pattern outside the modelled fragment (one that contains
raw regex metacharacters) the embedding returns `false`; every theorem about
it carries a `globTranslate … = some _` hypothesis. -/
def matchesPattern (filePath pattern : List Char) : Bool :=
  match globTranslate pattern with
  | some as => regexTestAux as filePath
  | none => false

end SkillLoader

/-! ## Skill matching (skills/loader.ts, `loadSkills` sort and `matchSkills`)

`loadSkills` sorts the discovered skills with
`skills.sort((a, b) => priorityOrder[b.priority] - priorityOrder[a.priority])`;
`Array.prototype.sort` is stable, so this is the stable descending sort by
`priorityOrder`, embedded as an insertion sort that keeps earlier input
elements first among equal priorities.  `matchSkills` then iterates the file
paths (outer loop) and the sorted skills (inner loop, `break` after the first
matching trigger), collecting hits into a `Set<Skill>`; a JS `Set` keyed on
object identity and iterated in insertion order is embedded by tracking the
positional index of each skill in the sorted list. -/

/-- The inner trigger loop of `matchSkills`: the skill fires on a path when
some trigger pattern matches it. -/
def skillTriggerHit (filePath : List Char) (sk : Skill) : Bool :=
  sk.triggers.any (fun trig => SkillLoader.matchesPattern filePath trig)

/-- Stable insertion into a priority-descending list: the inserted element
precedes the first element of not-greater priority, so among equal
priorities earlier input comes first. -/
def insertByPriorityDesc (x : Skill) : List Skill → List Skill
  | [] => [x]
  | y :: ys =>
    if priorityOrder y.priority ≤ priorityOrder x.priority then x :: y :: ys
    else y :: insertByPriorityDesc x ys

/-- The stable priority-descending sort applied by `loadSkills`. -/
def sortByPriorityDesc : List Skill → List Skill
  | [] => []
  | x :: xs => insertByPriorityDesc x (sortByPriorityDesc xs)

/-- Pair each skill with its position, from `k` upward. -/
def enumSkillsFrom (k : Nat) : List Skill → List (Nat × Skill)
  | [] => []
  | sk :: rest => (k, sk) :: enumSkillsFrom (k + 1) rest

/-- One outer-loop step of `matchSkills`: scan the (indexed) sorted skills in
order and append each skill whose triggers hit `path` and whose index is not
yet in the matched set. -/
def addMatched (path : List Char) (acc : List Nat) (indexed : List (Nat × Skill)) : List Nat :=
  indexed.foldl
    (fun acc p => if skillTriggerHit path p.2 && !(decide (p.1 ∈ acc)) then acc ++ [p.1] else acc)
    acc

/-- The insertion-ordered index set the `matchSkills` loops build. -/
def matchSkillsIdx (skills : List Skill) (paths : List (List Char)) : List Nat :=
  paths.foldl (fun acc path => addMatched path acc (enumSkillsFrom 0 skills)) []

namespace SkillLoader

/-- `SkillLoader.matchSkills`: `loadSkills` (modulo file I/O, which hands the
embedding the discovered skill list) sorts by priority, then the nested loops
collect matched skills in `Set` insertion order and `Array.from` returns that
order. -/
def matchSkills (skills : List Skill) (paths : List (List Char)) : List Skill :=
  (matchSkillsIdx (sortByPriorityDesc skills) paths).filterMap
    (fun i => (sortByPriorityDesc skills).get? i)

end SkillLoader

/-- Per-path groups of the reference ordering: for each path (in order), the
indices of the skills whose first matching path it is, in sorted-list order;
`done` holds the paths already passed. -/
def matchSkillsSpecGo (skills : List Skill) (done : List (List Char)) :
    List (List Char) → List (List Nat)
  | [] => []
  | path :: rest =>
    ((enumSkillsFrom 0 skills).filter (fun p =>
        skillTriggerHit path p.2 && !(done.any (fun q => skillTriggerHit q p.2)))).map (·.1)
      :: matchSkillsSpecGo skills (done ++ [path]) rest

/-- Reference ordering for the matched-skill indices, written from the
amended claim: skills grouped by the first path that matches them (path
order), and within one group in sorted-list order; a skill appears only in
the group of its first matching path. -/
def matchSkillsSpec (skills : List Skill) (paths : List (List Char)) : List Nat :=
  List.flatten (matchSkillsSpecGo skills [] paths)

/-- A low-priority skill triggered by path `a` (counterexample input). -/
def cexSkillLow : Skill :=
  { name := ['l'], description := [], triggers := [['a']], priority := .low, content := [] }

/-- A high-priority skill triggered by path `b` (counterexample input). -/
def cexSkillHigh : Skill :=
  { name := ['h'], description := [], triggers := [['b']], priority := .high, content := [] }

/-! ## Context building (context/builder, `ContextBuilder.build`)

`build` fetches PR data, filters the fetched file list with
`files.filter(f => !this.config.ignorePaths.some(ignore => f.path.includes(ignore)))`,
matches skills against the surviving paths, and returns the context with the
filtered file list and the diff as fetched.  The embedding keeps the pure
data flow (the fetches and the best-effort content enrichment are I/O). -/

structure FileInfo where
  path : List Char
  content : Option (List Char) := none
  language : Option (List Char) := none
deriving DecidableEq, Repr

structure ReviewConfig where
  maxDiffSize : Nat
  focusAreas : List (List Char)
  ignorePaths : List (List Char)
deriving DecidableEq, Repr

/-- The fields of `ReviewContext` (types.ts) the core computes; the PR
metadata and tickets are fetched I/O values passed through unchanged. -/
structure ReviewContext where
  diff : Diff
  files : List FileInfo
  skills : List Skill
  config : ReviewConfig
deriving DecidableEq, Repr

namespace ContextBuilder

/-- The pure core of `ContextBuilder.build`: ignore-path filtering by
substring containment (`String.prototype.includes`), skill matching on the
filtered paths, diff passed through untouched. -/
def buildCore (config : ReviewConfig) (skills : List Skill)
    (files : List FileInfo) (diff : Diff) : ReviewContext :=
  let filteredFiles := files.filter (fun f =>
    !(config.ignorePaths.any (fun ignore => containsSub f.path ignore)))
  { diff := diff,
    files := filteredFiles,
    skills := SkillLoader.matchSkills skills (filteredFiles.map (·.path)),
    config := config }

end ContextBuilder

/-- Ignore configuration of the C4 counterexample: one glob-style entry. -/
def cexIgnoreConfig : ReviewConfig :=
  { maxDiffSize := 0, focusAreas := [], ignorePaths := ["*.md".data] }

/-- A file whose path the glob `*.md` matches. -/
def cexReadme : FileInfo := { path := "README.md".data }

/-- An empty diff value. -/
def emptyDiff : Diff := { files := [], additions := 0, deletions := 0, changedFiles := 0 }

/-! ## Diff parsing (adapters/vcs/github.ts, `parseDiff` / `parseHunks`)

`parseHunks` repeatedly `exec`s `/@@ -(\d+),?(\d*) \+(\d+),?(\d*) @@/g` over
the block.  At a given position the regex is deterministic: after `@@ -` the
greedy `(\d+)` takes the maximal digit run (splitting the run between the two
digit groups never changes where the following literal must match, so
backtracking adds nothing); a following comma is consumed together with the
maximal digit run after it, or the length group captures the empty string;
then the literal ` +`, the same shape again, and ` @@`.  On failure the
engine retries at the next position, and after a match it resumes at the
match end.  `parseInt(start) || 1` maps the digit value 0 to 1 (0 is falsy);
`parseInt(lines) || 0` maps an absent capture (`parseInt('')` is `NaN`) to 0
and keeps every digit value, since `parseInt('0') || 0` is also 0. -/

/-- The four capture groups of one hunk-header match: start digit values and
optional (comma-introduced) length digit values. -/
structure HunkCaps where
  oldStartRaw : Nat
  oldLinesRaw : Option Nat
  newStartRaw : Nat
  newLinesRaw : Option Nat
deriving DecidableEq, Repr

/-- The optional `,?(\d*)` part after a start field: a comma followed by the
maximal (possibly empty) digit run, or nothing. -/
def matchLenPart (s : List Char) : Option Nat × List Char :=
  if listStartsWith s [','] then
    (some (natOfDigits ((s.drop 1).takeWhile isDigitChar)), (s.drop 1).dropWhile isDigitChar)
  else (none, s)

/-- The separator text `,` plus digit text an optional length field adds to
the header, for stating header decompositions. -/
def lenPartChars : Option (List Char) → List Char
  | none => []
  | some d => ',' :: d

/-- Try the hunk-header regex at the head of `s`; on success return the
captures and the rest of the input after the match. -/
def matchHunkHeaderAt (s : List Char) : Option (HunkCaps × List Char) :=
  if listStartsWith s "@@ -".data then
    let s1 := s.drop 4
    let d1 := s1.takeWhile isDigitChar
    if d1.isEmpty then none
    else
      let p1 := matchLenPart (s1.dropWhile isDigitChar)
      if listStartsWith p1.2 " +".data then
        let s3 := p1.2.drop 2
        let d3 := s3.takeWhile isDigitChar
        if d3.isEmpty then none
        else
          let p2 := matchLenPart (s3.dropWhile isDigitChar)
          if listStartsWith p2.2 " @@".data then
            some ({ oldStartRaw := natOfDigits d1, oldLinesRaw := p1.1,
                    newStartRaw := natOfDigits d3, newLinesRaw := p2.1 }, p2.2.drop 3)
          else none
      else none
  else none

/-- Scan forward for the next hunk-header match (the regex engine retries at
each successive position). -/
def findHunkHeader : List Char → Option (HunkCaps × List Char)
  | [] => none
  | s@(_ :: t) =>
    match matchHunkHeaderAt s with
    | some r => some r
    | none => findHunkHeader t

/-- Hunk content: the text from the match end up to the next occurrence of
`@@ ` (the source's `indexOf('@@ ', startIndex)`), or to the end. -/
def takeUntilAtAt : List Char → List Char
  | [] => []
  | s@(c :: t) => if listStartsWith s ['@', '@', ' '] then [] else c :: takeUntilAtAt t

/-- One parsed hunk from its captures and raw content: the JS falsy `|| 1`
and `|| 0` defaults applied, content `.trim()`ed. -/
def mkHunk (caps : HunkCaps) (rawContent : List Char) : DiffHunk :=
  { oldStart := if caps.oldStartRaw = 0 then 1 else caps.oldStartRaw,
    oldLines := caps.oldLinesRaw.getD 0,
    newStart := if caps.newStartRaw = 0 then 1 else caps.newStartRaw,
    newLines := caps.newLinesRaw.getD 0,
    content := trimStr rawContent }

/-- The `exec` loop of `parseHunks`, fuel-indexed (each iteration consumes at
least one character, so the block length is enough fuel). -/
def parseHunksGo : Nat → List Char → List DiffHunk
  | 0, _ => []
  | fuel + 1, s =>
    match findHunkHeader s with
    | none => []
    | some (caps, rem) => mkHunk caps (takeUntilAtAt rem) :: parseHunksGo fuel rem

/-- The scan-count of hunk-header occurrences (leftmost, non-overlapping),
counted independently of hunk construction. -/
def countHeadersGo : Nat → List Char → Nat
  | 0, _ => 0
  | fuel + 1, s =>
    match findHunkHeader s with
    | none => 0
    | some (_, rem) => 1 + countHeadersGo fuel rem

/-- Number of hunk-header occurrences in a block. -/
def countHunkHeaders (block : List Char) : Nat := countHeadersGo block.length block

/-- The separator of `diffText.split(/^diff --git /m)`. -/
def diffSepChars : List Char := "diff --git ".data

/-- The splitter: scan character by character tracking whether the position
follows a line terminator (where multiline `^` matches); at a separator
occurrence close the current piece and continue after the separator text. -/
def splitDiffGo : Nat → List Char → Bool → List Char → List (List Char)
  | _, cur, _, [] => [cur.reverse]
  | 0, cur, _, s => [cur.reverse ++ s]
  | fuel + 1, cur, atStart, s@(c :: t) =>
    if atStart && listStartsWith s diffSepChars then
      cur.reverse :: splitDiffGo fuel [] false (s.drop diffSepChars.length)
    else
      splitDiffGo fuel (c :: cur) (isLineTerm c) t

/-- `diffText.split(/^diff --git /m).filter(Boolean)`: split at line-start
separator occurrences and drop empty pieces. -/
def splitDiffBlocks (text : List Char) : List (List Char) :=
  (splitDiffGo text.length [] true text).filter (fun b => !b.isEmpty)

/-- One entry of the GitHub `listFiles` response, as `parseDiff` reads it. -/
structure GhFileData where
  filename : List Char
  previous_filename : Option (List Char) := none
  status : List Char
  additions : Nat
  deletions : Nat
deriving DecidableEq, Repr

/-- The status-string mapping of `parseDiff` (default `modified`). -/
def mapGhStatus (st : List Char) : FileStatus :=
  if st = "added".data then .added
  else if st = "removed".data then .deleted
  else if st = "renamed".data then .renamed
  else .modified

namespace GitHubAdapter

/-- `GitHubAdapter.parseHunks`. -/
def parseHunks (block : List Char) : List DiffHunk :=
  parseHunksGo block.length block

/-- `GitHubAdapter.parseDiff`: split into per-file blocks, pair positionally
with the metadata entries up to the shorter length (`i < fileBlocks.length
&& i < filesData.length`), and parse each block's hunks. -/
def parseDiff (diffText : List Char) (filesData : List GhFileData) : List FileDiff :=
  ((splitDiffBlocks diffText).zip filesData).map (fun bf =>
    { path := bf.2.filename,
      oldPath := bf.2.previous_filename,
      status := mapGhStatus bf.2.status,
      additions := bf.2.additions,
      deletions := bf.2.deletions,
      hunks := parseHunks bf.1 })

end GitHubAdapter

/-- Counterexample / witness diff text: one file block with one hunk. -/
def cexDiffText : List Char := "diff --git a/f b/f\n@@ -1 +2 @@\n+x".data

/-- Metadata entry paired with the block of `cexDiffText`. -/
def cexFileData : GhFileData :=
  { filename := ['f'], status := "added".data, additions := 1, deletions := 0 }

/-- The FileDiff `parseDiff` produces from `cexDiffText` and `cexFileData`. -/
def cexFileDiff : FileDiff :=
  { path := ['f'], oldPath := none, status := .added, additions := 1, deletions := 0,
    hunks := [{ oldStart := 1, oldLines := 0, newStart := 2, newLines := 0,
                content := ['+', 'x'] }] }

/-! ## Response extraction (llm/ollama.ts and llm/claude.ts,
`parseReviewResponse`; both backends contain the identical code)

Verdict: `response.match(/VERDICT:\s*(approve|request_changes|comment)/i)`.
At one position this is deterministic: the literal `VERDICT:`
case-insensitively, then `\s*` greedily (no alternative starts with a
whitespace character, so shrinking the greedy run can never help), then the
alternatives tried in order; each alternative is a bare literal, so it
matches exactly when it is a case-insensitive prefix of what follows.  The
engine tries successive start positions, and a missing match falls back to
`comment`.

Comments: `/\[File:\s*([^\],]+),?\s*Line:\s*(\d+)\]\s*([\s\S]*?)(?=\[File:|VERDICT:|$)/gi`.
After the literal `[File:`, the combined `\s*([^\],]+)` can end at any
position `e` within the maximal run of non-`]`/non-`,` characters (length
`M`), and backtracking tries `e = M` downward; with `W` the maximal
whitespace run, the path capture for a given `e` is the region from
`min(W, e-1)` to `e` (the greedy `\s*` shrinks only once the capture would
become empty, whitespace being a member of the class).  The tail
`,?\s*Line:\s*(\d+)\]` is deterministic at a given `e`: a comma is consumed
exactly when present (a leftover comma can never match `\s*Line:`), the
greedy whitespace runs cannot shrink usefully, and the maximal digit run
must be followed by `]`.  After the bracket, greedy `\s*` (the stop literals
start with non-whitespace) and then the lazy body stops at the first
position where `[File:` or `VERDICT:` (case-insensitive) begins, or at the
end of input (`$`); the next `exec` resumes there. -/

/-- Try the verdict regex at the head of `s`. -/
def matchVerdictAt (s : List Char) : Option Verdict :=
  if startsWithCI s "VERDICT:".data then
    let rest := (s.drop 8).dropWhile (isWsChar ·)
    if startsWithCI rest "approve".data then some .approve
    else if startsWithCI rest "request_changes".data then some .request_changes
    else if startsWithCI rest "comment".data then some .comment
    else none
  else none

/-- Scan for the first position where the verdict regex matches; absent a
match, the conservative `comment` fallback. -/
def extractVerdictGo : List Char → Verdict
  | [] => .comment
  | s@(_ :: t) =>
    match matchVerdictAt s with
    | some v => v
    | none => extractVerdictGo t

/-- The verdict branch of `parseReviewResponse`. -/
def extractVerdict (s : List Char) : Verdict := extractVerdictGo s

/-- Length of the lazy comment body: stop at the first position where
`[File:` or `VERDICT:` begins (case-insensitively), or at the end. -/
def bodyScan : List Char → Nat
  | [] => 0
  | s@(_ :: t) =>
    if startsWithCI s "[File:".data || startsWithCI s "VERDICT:".data then 0
    else 1 + bodyScan t

/-- The deterministic tail `,?\s*Line:\s*(\d+)\]` of the comment regex at a
candidate path end; returns the line number and the input after `]`. -/
def matchLineTail (t : List Char) : Option (Nat × List Char) :=
  let t1 := if listStartsWith t [','] then t.drop 1 else t
  let t2 := t1.dropWhile (isWsChar ·)
  if startsWithCI t2 "Line:".data then
    let t3 := (t2.drop 5).dropWhile (isWsChar ·)
    let ds := t3.takeWhile isDigitChar
    if ds.isEmpty then none
    else
      if listStartsWith (t3.drop ds.length) [']'] then
        some (natOfDigits ds, (t3.drop ds.length).drop 1)
      else none
  else none

/-- Search the path-end position `e` from the maximal class run downward
(the backtracking order of the greedy `[^\],]+`). -/
def findPathEnd (r : List Char) : Nat → Option (Nat × Nat × List Char)
  | 0 => none
  | e + 1 =>
    match matchLineTail (r.drop (e + 1)) with
    | some (line, rem) => some (e + 1, line, rem)
    | none => findPathEnd r e

/-- Try the comment regex at the head of `s`; on success return the built
ReviewComment and the position where the lazy body stopped (where the next
`exec` resumes). -/
def matchCommentAt (s : List Char) : Option (ReviewComment × List Char) :=
  if startsWithCI s "[File:".data then
    let r := s.drop 6
    let w := (r.takeWhile (isWsChar ·)).length
    match findPathEnd r (r.takeWhile (fun c => !(c = ']') && !(c = ','))).length with
    | none => none
    | some (e, line, rem) =>
      let pathRaw := (r.take e).drop (min w (e - 1))
      let afterWs := rem.dropWhile (isWsChar ·)
      let bodyRaw := afterWs.take (bodyScan afterWs)
      some ({ path := trimStr pathRaw, line := line, body := trimStr bodyRaw,
              severity := detectSeverity bodyRaw },
            afterWs.drop (bodyScan afterWs))
  else none

/-- The comment `exec` loop: on failure the engine advances one position; a
match resumes at its end.  Fuel-indexed; every iteration consumes at least
one character, so the response length is enough fuel. -/
def parseCommentsGo : Nat → List Char → List ReviewComment
  | 0, _ => []
  | _ + 1, [] => []
  | fuel + 1, s@(_ :: t) =>
    match matchCommentAt s with
    | some (c, rem) => c :: parseCommentsGo fuel rem
    | none => parseCommentsGo fuel t

/-- Length of the lazy summary capture: stop where `COMMENTS:` or
`VERDICT:` begins (case-insensitively), or at the end. -/
def summaryScan : List Char → Nat
  | [] => 0
  | s@(_ :: t) =>
    if startsWithCI s "COMMENTS:".data || startsWithCI s "VERDICT:".data then 0
    else 1 + summaryScan t

/-- Try the summary regex at the head of `s`, returning the raw capture. -/
def matchSummaryAt (s : List Char) : Option (List Char) :=
  if startsWithCI s "SUMMARY:".data then
    let afterWs := (s.drop 8).dropWhile (isWsChar ·)
    some (afterWs.take (summaryScan afterWs))
  else none

/-- Scan for the first summary match. -/
def extractSummaryGo : List Char → Option (List Char)
  | [] => none
  | s@(_ :: t) =>
    match matchSummaryAt s with
    | some cap => some cap
    | none => extractSummaryGo t

/-- The summary branch: the trimmed capture, or the first 500 characters of
the response when the marker is absent. -/
def extractSummary (s : List Char) : List Char :=
  match extractSummaryGo s with
  | some cap => trimStr cap
  | none => s.take 500

/-- `parseReviewResponse` of both LLM backends: summary, comment list,
empty suggestions, verdict. -/
def parseReviewResponse (response : List Char) : ReviewResult :=
  { summary := extractSummary response,
    comments := parseCommentsGo response.length response,
    suggestions := [],
    verdict := extractVerdict response }

/-! ## Review engine post-processing (the `review` method)

`result.comments = result.comments.slice(0, this.maxComments)`;
`result.suggestions = result.suggestions.slice(0, this.maxSuggestions)`;
then `result.comments = result.comments.filter(c => c.path && c.line && c.body)`
— the cap is applied before the validity filter. -/

/-- JS truthiness of the three required comment fields: non-empty path,
non-zero line, non-empty body. -/
def validComment (c : ReviewComment) : Bool :=
  !(c.path.isEmpty) && !(c.line == 0) && !(c.body.isEmpty)

namespace ReviewEngine

/-- The post-processing of `ReviewEngine.review` applied to the backend's
result: slice both lists to the configured maximums, then filter the
comments for the required fields. -/
def review (maxComments maxSuggestions : Nat) (r : ReviewResult) : ReviewResult :=
  { r with
    comments := (r.comments.take maxComments).filter validComment,
    suggestions := r.suggestions.take maxSuggestions }

end ReviewEngine

/-- C8 counterexample input: two comment tags, the first with an empty body,
the second valid. -/
def cexResponse : List Char := "[File: a, Line: 3][File: b, Line: 4]ok".data

/-- C7 counterexample input: the verdict token is `approved`. -/
def cexApprovedResponse : List Char := "VERDICT: approved".data

/-! ## JSON output (JsonFormatter.format = `JSON.stringify(result, null, 2)`)

The JSON values a ReviewResult serializes to need strings, non-negative
integer numbers, arrays, and objects.  Mutually inductive lists avoid nested
recursion.  The serializer reproduces `JSON.stringify(_, null, 2)`: its
escape set (quote, backslash, the \b \t \n \f \r shorthands, `\u00xx` for
the remaining control characters), its decimal integers, and its two-space
pretty-printing with empty arrays and objects rendered as `[]` and `{}`.
The parser is a standard recursive-descent JSON reader (`JSON.parse`)
restricted to the same value forms, fuel-indexed on nesting. -/

mutual

inductive Json where
  | str (s : List Char)
  | num (n : Nat)
  | arr (elems : JsonList)
  | obj (fields : JsonFields)

inductive JsonList where
  | nil
  | cons (hd : Json) (tl : JsonList)

inductive JsonFields where
  | nil
  | cons (key : List Char) (val : Json) (tl : JsonFields)

end

/-- Lowercase hex digit (as `JSON.stringify` emits in `\u00xx`). -/
def hexDigitChar (n : Nat) : Char :=
  if n < 10 then Char.ofNat (48 + n) else Char.ofNat (87 + n)

/-- The `JSON.stringify` escape of one character. -/
def escapeChar (c : Char) : List Char :=
  if c = '"' then ['\\', '"']
  else if c = '\\' then ['\\', '\\']
  else if c = '\x08' then ['\\', 'b']
  else if c = '\t' then ['\\', 't']
  else if c = '\n' then ['\\', 'n']
  else if c = '\x0c' then ['\\', 'f']
  else if c = '\r' then ['\\', 'r']
  else if c.toNat < 32 then
    ['\\', 'u', '0', '0', hexDigitChar (c.toNat / 16), hexDigitChar (c.toNat % 16)]
  else [c]

def escapeStr (s : List Char) : List Char := (s.map escapeChar).flatten

/-- A JSON string literal: quotes around the escaped content. -/
def quoteStr (s : List Char) : List Char := '"' :: (escapeStr s ++ ['"'])

def decDigitChar (d : Nat) : Char := Char.ofNat (48 + d)

/-- Decimal digits of `n`, most significant first (fuel-indexed: `n` itself
bounds the division chain). -/
def natToDigitsGo : Nat → Nat → List Char
  | 0, _ => []
  | fuel + 1, n =>
    if n < 10 then [decDigitChar n]
    else natToDigitsGo fuel (n / 10) ++ [decDigitChar (n % 10)]

def natToDigits (n : Nat) : List Char := natToDigitsGo (n + 1) n

/-- Two spaces of indentation per nesting level. -/
def indentChars (n : Nat) : List Char := List.replicate (2 * n) ' '

mutual

/-- `JSON.stringify(v, null, 2)` at nesting depth `ind`. -/
def serJson : Nat → Json → List Char
  | _, .str s => quoteStr s
  | _, .num n => natToDigits n
  | _, .arr .nil => ['[', ']']
  | ind, .arr (.cons x tl) =>
    '[' :: '\n' :: (indentChars (ind + 1) ++ serElems ind (JsonList.cons x tl))
  | _, .obj .nil => ['\x7b', '\x7d']
  | ind, .obj (.cons k v tl) =>
    '\x7b' :: '\n' :: (indentChars (ind + 1) ++ serFields ind (JsonFields.cons k v tl))

/-- The elements of a non-empty array from the first element on, including
the separators and the closing bracket at the parent indent. -/
def serElems (ind : Nat) : JsonList → List Char
  | .nil => []
  | .cons x .nil => serJson (ind + 1) x ++ '\n' :: (indentChars ind ++ [']'])
  | .cons x (.cons y tl) =>
    serJson (ind + 1) x ++ ',' :: '\n' ::
      (indentChars (ind + 1) ++ serElems ind (JsonList.cons y tl))

/-- The members of a non-empty object from the first member on. -/
def serFields (ind : Nat) : JsonFields → List Char
  | .nil => []
  | .cons k v .nil =>
    quoteStr k ++ ':' :: ' ' :: (serJson (ind + 1) v ++ '\n' :: (indentChars ind ++ ['\x7d']))
  | .cons k v (.cons k' v' tl) =>
    quoteStr k ++ ':' :: ' ' ::
      (serJson (ind + 1) v ++ ',' :: '\n' ::
        (indentChars (ind + 1) ++ serFields ind (JsonFields.cons k' v' tl)))

end

/-- JSON whitespace (`JSON.parse` skips space, tab, LF, CR). -/
def isJsonWs (c : Char) : Bool := c = ' ' || c = '\t' || c = '\n' || c = '\r'

def skipJsonWs (s : List Char) : List Char := s.dropWhile isJsonWs

/-- Value of one hex digit. -/
def parseHex (c : Char) : Option Nat :=
  if '0' ≤ c && c ≤ '9' then some (c.toNat - 48)
  else if 'a' ≤ c && c ≤ 'f' then some (c.toNat - 87)
  else if 'A' ≤ c && c ≤ 'F' then some (c.toNat - 55)
  else none

/-- The single-character JSON escapes. -/
def unescapeChar (e : Char) : Option Char :=
  if e = '"' then some '"'
  else if e = '\\' then some '\\'
  else if e = '/' then some '/'
  else if e = 'b' then some '\x08'
  else if e = 't' then some '\t'
  else if e = 'n' then some '\n'
  else if e = 'f' then some '\x0c'
  else if e = 'r' then some '\r'
  else none

/-- Parse a JSON string body (after the opening quote) up to the closing
quote, resolving escapes; returns the decoded string and the rest. -/
def parseStringBody : List Char → Option (List Char × List Char)
  | [] => none
  | c :: rest =>
    if c = '"' then some ([], rest)
    else if c = '\\' then
      match rest with
      | [] => none
      | e :: r =>
        if e = 'u' then
          match r with
          | h1 :: h2 :: h3 :: h4 :: r' =>
            match parseHex h1, parseHex h2, parseHex h3, parseHex h4 with
            | some a, some b, some cc, some d =>
              (parseStringBody r').map
                (fun p => (Char.ofNat (((a * 16 + b) * 16 + cc) * 16 + d) :: p.1, p.2))
            | _, _, _, _ => none
          | _ => none
        else
          match unescapeChar e with
          | some uc => (parseStringBody r).map (fun p => (uc :: p.1, p.2))
          | none => none
    else (parseStringBody rest).map (fun p => (c :: p.1, p.2))

/-- Parse a non-negative integer (the number form the formatter emits). -/
def parseNumberAt (s : List Char) : Option (Nat × List Char) :=
  let ds := s.takeWhile isDigitChar
  if ds.isEmpty then none else some (natOfDigits ds, s.drop ds.length)

mutual

/-- Recursive-descent JSON value parser, fuel-indexed on nesting. -/
def parseJsonValue : Nat → List Char → Option (Json × List Char)
  | 0, _ => none
  | fuel + 1, s =>
    match s with
    | [] => none
    | c :: rest =>
      if c = '"' then (parseStringBody rest).map (fun p => (Json.str p.1, p.2))
      else if c = '[' then
        let r1 := skipJsonWs rest
        if listStartsWith r1 [']'] then some (Json.arr JsonList.nil, r1.drop 1)
        else (parseJsonElems fuel r1).map (fun p => (Json.arr p.1, p.2))
      else if c = '\x7b' then
        let r1 := skipJsonWs rest
        if listStartsWith r1 ['\x7d'] then some (Json.obj JsonFields.nil, r1.drop 1)
        else (parseJsonFields fuel r1).map (fun p => (Json.obj p.1, p.2))
      else if isDigitChar c then
        (parseNumberAt (c :: rest)).map (fun p => (Json.num p.1, p.2))
      else none

/-- Parse the elements of a non-empty array up to and including `]`. -/
def parseJsonElems : Nat → List Char → Option (JsonList × List Char)
  | 0, _ => none
  | fuel + 1, s =>
    match parseJsonValue fuel s with
    | none => none
    | some (v, r) =>
      let r1 := skipJsonWs r
      if listStartsWith r1 [','] then
        (parseJsonElems fuel (skipJsonWs (r1.drop 1))).map
          (fun p => (JsonList.cons v p.1, p.2))
      else if listStartsWith r1 [']'] then some (JsonList.cons v JsonList.nil, r1.drop 1)
      else none

/-- Parse the members of a non-empty object up to and including `}`. -/
def parseJsonFields : Nat → List Char → Option (JsonFields × List Char)
  | 0, _ => none
  | fuel + 1, s =>
    if listStartsWith s ['"'] then
      match parseStringBody (s.drop 1) with
      | none => none
      | some (key, r1) =>
        let r2 := skipJsonWs r1
        if listStartsWith r2 [':'] then
          match parseJsonValue fuel (skipJsonWs (r2.drop 1)) with
          | none => none
          | some (v, r3) =>
            let r4 := skipJsonWs r3
            if listStartsWith r4 [','] then
              (parseJsonFields fuel (skipJsonWs (r4.drop 1))).map
                (fun p => (JsonFields.cons key v p.1, p.2))
            else if listStartsWith r4 ['\x7d'] then
              some (JsonFields.cons key v JsonFields.nil, r4.drop 1)
            else none
        else none
    else none

end

/-! ## ReviewResult as JSON

`JSON.stringify` walks the object's own enumerable properties in insertion
order and omits `undefined`-valued ones, so the optional `suggestion`/`id`
keys appear only when present.  Reading the string back (`JSON.parse` plus
field access) is modelled by the generic parser above followed by a decoder
keyed on the field names. -/

def encodeSeverity : Severity → Json
  | .info => .str "info".data
  | .warning => .str "warning".data
  | .error => .str "error".data

def encodeVerdict : Verdict → Json
  | .approve => .str "approve".data
  | .request_changes => .str "request_changes".data
  | .comment => .str "comment".data

/-- An optional string-valued key: present only when the value is. -/
def optField (k : List Char) (o : Option (List Char)) (tl : JsonFields) : JsonFields :=
  match o with
  | none => tl
  | some s => .cons k (.str s) tl

def encodeComment (c : ReviewComment) : Json :=
  .obj (.cons "path".data (.str c.path)
    (.cons "line".data (.num c.line)
      (.cons "body".data (.str c.body)
        (.cons "severity".data (encodeSeverity c.severity)
          (optField "suggestion".data c.suggestion
            (optField "id".data c.id .nil))))))

def encodeSuggestion (s : CodeSuggestion) : Json :=
  .obj (.cons "path".data (.str s.path)
    (.cons "line".data (.num s.line)
      (.cons "oldCode".data (.str s.oldCode)
        (.cons "newCode".data (.str s.newCode)
          (.cons "description".data (.str s.description) .nil)))))

def encodeComments : List ReviewComment → JsonList
  | [] => .nil
  | c :: t => .cons (encodeComment c) (encodeComments t)

def encodeSuggestions : List CodeSuggestion → JsonList
  | [] => .nil
  | s :: t => .cons (encodeSuggestion s) (encodeSuggestions t)

def encodeReviewResult (r : ReviewResult) : Json :=
  .obj (.cons "summary".data (.str r.summary)
    (.cons "comments".data (.arr (encodeComments r.comments))
      (.cons "suggestions".data (.arr (encodeSuggestions r.suggestions))
        (.cons "verdict".data (encodeVerdict r.verdict) .nil))))

namespace JsonFormatter

/-- `JsonFormatter.format(result)` = `JSON.stringify(result, null, 2)`. -/
def format (r : ReviewResult) : List Char := serJson 0 (encodeReviewResult r)

end JsonFormatter

/-- First field with the given key. -/
def lookupField : JsonFields → List Char → Option Json
  | .nil, _ => none
  | .cons k v tl, key => if k = key then some v else lookupField tl key

def decodeSeverity : Json → Option Severity
  | .str s =>
    if s = "info".data then some .info
    else if s = "warning".data then some .warning
    else if s = "error".data then some .error
    else none
  | _ => none

def decodeVerdict : Json → Option Verdict
  | .str s =>
    if s = "approve".data then some .approve
    else if s = "request_changes".data then some .request_changes
    else if s = "comment".data then some .comment
    else none
  | _ => none

/-- An optional string-valued key read back: absent means `none`. -/
def decodeOptStr (f : JsonFields) (k : List Char) : Option (Option (List Char)) :=
  match lookupField f k with
  | none => some none
  | some (.str s) => some (some s)
  | some _ => none

def decodeComment : Json → Option ReviewComment
  | .obj f =>
    match lookupField f "path".data, lookupField f "line".data,
        lookupField f "body".data, lookupField f "severity".data with
    | some (.str p), some (.num n), some (.str b), some sv =>
      match decodeSeverity sv, decodeOptStr f "suggestion".data, decodeOptStr f "id".data with
      | some sev, some sug, some idv =>
        some { id := idv, path := p, line := n, body := b, severity := sev, suggestion := sug }
      | _, _, _ => none
    | _, _, _, _ => none
  | _ => none

def decodeSuggestion : Json → Option CodeSuggestion
  | .obj f =>
    match lookupField f "path".data, lookupField f "line".data,
        lookupField f "oldCode".data, lookupField f "newCode".data,
        lookupField f "description".data with
    | some (.str p), some (.num n), some (.str oc), some (.str nc), some (.str d) =>
      some { path := p, line := n, oldCode := oc, newCode := nc, description := d }
    | _, _, _, _, _ => none
  | _ => none

def decodeComments : JsonList → Option (List ReviewComment)
  | .nil => some []
  | .cons x tl =>
    match decodeComment x, decodeComments tl with
    | some c, some t => some (c :: t)
    | _, _ => none

def decodeSuggestions : JsonList → Option (List CodeSuggestion)
  | .nil => some []
  | .cons x tl =>
    match decodeSuggestion x, decodeSuggestions tl with
    | some s, some t => some (s :: t)
    | _, _ => none

def decodeReviewResult : Json → Option ReviewResult
  | .obj f =>
    match lookupField f "summary".data, lookupField f "comments".data,
        lookupField f "suggestions".data, lookupField f "verdict".data with
    | some (.str sm), some (.arr cs), some (.arr sg), some vd =>
      match decodeComments cs, decodeSuggestions sg, decodeVerdict vd with
      | some cl, some sl, some v =>
        some { summary := sm, comments := cl, suggestions := sl, verdict := v }
      | _, _, _ => none
    | _, _, _, _ => none
  | _ => none

/-- `JSON.parse` of a full document followed by reading it back as a
ReviewResult: leading/trailing whitespace allowed, nothing else after the
value. -/
def parseReviewResultJson (s : List Char) : Option ReviewResult :=
  match parseJsonValue (s.length + 1) (skipJsonWs s) with
  | some (j, rest) => if (skipJsonWs rest).isEmpty then decodeReviewResult j else none
  | none => none

/-- The next character, if any, is not a decimal digit (the condition under
which a serialized number is parsed back whole). -/
def headNonDigit : List Char → Bool
  | [] => true
  | c :: _ => !(isDigitChar c)

mutual

def jsonSizeJ : Json → Nat
  | .str _ => 1
  | .num _ => 1
  | .arr l => 1 + jsonSizeL l
  | .obj f => 1 + jsonSizeF f

def jsonSizeL : JsonList → Nat
  | .nil => 1
  | .cons x tl => 1 + jsonSizeJ x + jsonSizeL tl

def jsonSizeF : JsonFields → Nat
  | .nil => 1
  | .cons _ v tl => 1 + jsonSizeJ v + jsonSizeF tl

end

/-! ## Theorems -/

theorem listStartsWith_iff (s pat : List Char) :
    listStartsWith s pat = true ↔ ∃ post, s = pat ++ post := by
  induction pat generalizing s with
  | nil => simp [listStartsWith]
  | cons d t ih =>
    cases s with
    | nil => simp [listStartsWith]
    | cons c s' =>
      simp only [listStartsWith, Bool.and_eq_true, decide_eq_true_eq, ih, List.cons_append,
        List.cons.injEq]
      constructor
      · rintro ⟨rfl, post, rfl⟩; exact ⟨post, rfl, rfl⟩
      · rintro ⟨post, rfl, rfl⟩; exact ⟨rfl, post, rfl⟩

theorem containsSub_iff (hay needle : List Char) :
    containsSub hay needle = true ↔ ∃ pre post, hay = pre ++ needle ++ post := by
  induction hay with
  | nil =>
    simp only [containsSub, listStartsWith_iff]
    constructor
    · rintro ⟨post, h⟩; exact ⟨[], post, by simpa using h⟩
    · rintro ⟨pre, post, h⟩
      rcases List.append_eq_nil.mp (List.append_eq_nil.mp h.symm).1 with ⟨rfl, rfl⟩
      exact ⟨post, by simpa using h⟩
  | cons c t ih =>
    simp only [containsSub, Bool.or_eq_true, listStartsWith_iff, ih]
    constructor
    · rintro (⟨post, h⟩ | ⟨pre, post, h⟩)
      · exact ⟨[], post, by simpa using h⟩
      · exact ⟨c :: pre, post, by simp [h]⟩
    · rintro ⟨pre, post, h⟩
      cases pre with
      | nil => exact Or.inl ⟨post, by simpa using h⟩
      | cons p ps =>
        simp only [List.cons_append, List.cons.injEq] at h
        exact Or.inr ⟨ps, post, h.2⟩

theorem exists_split_cons {P : List Char → Prop} (x : Char) (t : List Char) :
    (∃ pre post, x :: t = pre ++ post ∧ P pre) ↔
      P [] ∨ ∃ pre post, t = pre ++ post ∧ P (x :: pre) := by
  constructor
  · rintro ⟨pre, post, hsplit, hp⟩
    cases pre with
    | nil => exact Or.inl (by simpa using hp)
    | cons y pre' =>
      simp only [List.cons_append, List.cons.injEq] at hsplit
      obtain ⟨rfl, rfl⟩ := hsplit
      exact Or.inr ⟨pre', post, rfl, hp⟩
  · rintro (hp | ⟨pre, post, rfl, hp⟩)
    · exact ⟨[], x :: t, rfl, hp⟩
    · exact ⟨x :: pre, post, rfl, hp⟩

theorem gmatches_starNoSlash (as : List GAtom) (s : List Char) :
    GMatches (GAtom.starNoSlash :: as) s ↔
      GMatches as s ∨ ∃ x t, s = x :: t ∧ x ≠ '/' ∧ GMatches (GAtom.starNoSlash :: as) t := by
  constructor
  · rintro ⟨w, t, rfl, hw, hm⟩
    cases w with
    | nil => exact Or.inl (by simpa using hm)
    | cons x w' =>
      refine Or.inr ⟨x, w' ++ t, rfl, hw x (by simp), w', t, rfl, ?_, hm⟩
      intro y hy; exact hw y (by simp [hy])
  · rintro (hm | ⟨x, t, rfl, hx, w, t', rfl, hw, hm⟩)
    · exact ⟨[], s, rfl, by simp, hm⟩
    · refine ⟨x :: w, t', rfl, ?_, hm⟩
      intro y hy
      rcases List.mem_cons.mp hy with rfl | hy'
      · exact hx
      · exact hw y hy'

theorem gmatches_starAny (as : List GAtom) (s : List Char) :
    GMatches (GAtom.starAny :: as) s ↔
      GMatches as s ∨ ∃ x t, s = x :: t ∧ isLineTerm x = false ∧ GMatches (GAtom.starAny :: as) t := by
  constructor
  · rintro ⟨w, t, rfl, hw, hm⟩
    cases w with
    | nil => exact Or.inl (by simpa using hm)
    | cons x w' =>
      refine Or.inr ⟨x, w' ++ t, rfl, hw x (by simp), w', t, rfl, ?_, hm⟩
      intro y hy; exact hw y (by simp [hy])
  · rintro (hm | ⟨x, t, rfl, hx, w, t', rfl, hw, hm⟩)
    · exact ⟨[], s, rfl, by simp, hm⟩
    · refine ⟨x :: w, t', rfl, ?_, hm⟩
      intro y hy
      rcases List.mem_cons.mp hy with rfl | hy'
      · exact hx
      · exact hw y hy'

theorem exists_split_nil {P : List Char → Prop} :
    (∃ pre post, ([] : List Char) = pre ++ post ∧ P pre) ↔ P [] := by
  constructor
  · rintro ⟨pre, post, hsplit, hp⟩
    rcases List.append_eq_nil.mp hsplit.symm with ⟨rfl, -⟩
    exact hp
  · intro hp; exact ⟨[], [], rfl, hp⟩

theorem gmatches_nil_iff (s : List Char) : GMatches [] s ↔ s = [] := Iff.rfl

theorem gmatches_lit_iff (c : Char) (as : List GAtom) (s : List Char) :
    GMatches (GAtom.lit c :: as) s ↔ ∃ t, s = c :: t ∧ GMatches as t := Iff.rfl

theorem gmatches_anyCh_iff (as : List GAtom) (s : List Char) :
    GMatches (GAtom.anyCh :: as) s ↔
      ∃ x t, s = x :: t ∧ isLineTerm x = false ∧ GMatches as t := Iff.rfl

theorem gmatchAux_iff : ∀ (fuel : Nat) (as : List GAtom) (s : List Char),
    as.length + s.length < fuel →
    (gmatchAux fuel as s = true ↔ ∃ pre post, s = pre ++ post ∧ GMatches as pre) := by
  intro fuel
  induction fuel with
  | zero => intro as s h; exact absurd h (Nat.not_lt_zero _)
  | succ fuel ih =>
    intro as s h
    cases as with
    | nil =>
      refine iff_of_true rfl ⟨[], s, rfl, rfl⟩
    | cons a as =>
      cases a with
      | lit c =>
        cases s with
        | nil =>
          refine iff_of_false (by simp [gmatchAux]) ?_
          rw [exists_split_nil, gmatches_lit_iff]
          rintro ⟨t, ht, -⟩
          exact List.noConfusion ht
        | cons x t =>
          have hfuel : as.length + t.length < fuel := by
            simp only [List.length_cons] at h; omega
          rw [show gmatchAux (fuel + 1) (GAtom.lit c :: as) (x :: t)
              = (decide (x = c) && gmatchAux fuel as t) from rfl]
          rw [exists_split_cons (P := fun pre => GMatches (GAtom.lit c :: as) pre)]
          simp only [gmatches_lit_iff, Bool.and_eq_true, decide_eq_true_eq, ih as t hfuel]
          constructor
          · rintro ⟨rfl, pre, post, rfl, hm⟩
            exact Or.inr ⟨pre, post, rfl, pre, rfl, hm⟩
          · rintro (h1 | h2)
            · obtain ⟨t1, ht1, -⟩ := h1
              exact List.noConfusion ht1
            · obtain ⟨pre, post, hsplit, t1, ht1, hm⟩ := h2
              obtain ⟨rfl, rfl⟩ : x = c ∧ pre = t1 := by
                simpa using congrArg (fun l => (l.head?, l.tail)) ht1
              exact ⟨rfl, pre, post, hsplit, hm⟩
      | anyCh =>
        cases s with
        | nil =>
          refine iff_of_false (by simp [gmatchAux]) ?_
          rw [exists_split_nil, gmatches_anyCh_iff]
          rintro ⟨x, t, ht, -⟩
          exact List.noConfusion ht
        | cons x t =>
          have hfuel : as.length + t.length < fuel := by
            simp only [List.length_cons] at h; omega
          rw [show gmatchAux (fuel + 1) (GAtom.anyCh :: as) (x :: t)
              = (!(isLineTerm x) && gmatchAux fuel as t) from rfl]
          rw [exists_split_cons (P := fun pre => GMatches (GAtom.anyCh :: as) pre)]
          simp only [gmatches_anyCh_iff, Bool.and_eq_true, Bool.not_eq_true', ih as t hfuel]
          constructor
          · rintro ⟨hx, pre, post, rfl, hm⟩
            exact Or.inr ⟨pre, post, rfl, x, pre, rfl, hx, hm⟩
          · rintro (h1 | h2)
            · obtain ⟨x1, t1, ht1, -⟩ := h1
              exact List.noConfusion ht1
            · obtain ⟨pre, post, hsplit, x1, t1, ht1, hx, hm⟩ := h2
              obtain ⟨rfl, rfl⟩ : x = x1 ∧ pre = t1 := by
                simpa using congrArg (fun l => (l.head?, l.tail)) ht1
              exact ⟨hx, pre, post, hsplit, hm⟩
      | starNoSlash =>
        have hfuel1 : as.length + s.length < fuel := by
          simp only [List.length_cons] at h; omega
        cases s with
        | nil =>
          rw [show gmatchAux (fuel + 1) (GAtom.starNoSlash :: as) []
              = (gmatchAux fuel as [] || false) from rfl]
          rw [exists_split_nil, gmatches_starNoSlash]
          simp only [Bool.or_false, ih as [] hfuel1, exists_split_nil]
          constructor
          · exact fun hm => Or.inl hm
          · rintro (hm | ⟨x, t, ht, -⟩)
            · exact hm
            · exact List.noConfusion ht
        | cons x t =>
          rw [show gmatchAux (fuel + 1) (GAtom.starNoSlash :: as) (x :: t)
              = (gmatchAux fuel as (x :: t)
                  || (!(x = '/') && gmatchAux fuel (GAtom.starNoSlash :: as) t)) from rfl]
          have hfuel2 : (GAtom.starNoSlash :: as).length + t.length < fuel := by
            simp only [List.length_cons] at h ⊢; omega
          simp only [Bool.or_eq_true, Bool.and_eq_true, Bool.not_eq_true',
            decide_eq_false_iff_not, ih as (x :: t) hfuel1, ih _ t hfuel2]
          constructor
          · rintro (⟨pre, post, hsplit, hm⟩ | ⟨hx, pre, post, rfl, hm⟩)
            · exact ⟨pre, post, hsplit, (gmatches_starNoSlash as pre).mpr (Or.inl hm)⟩
            · exact ⟨x :: pre, post, rfl,
                (gmatches_starNoSlash as (x :: pre)).mpr (Or.inr ⟨x, pre, rfl, hx, hm⟩)⟩
          · rintro ⟨pre, post, hsplit, hm⟩
            rcases (gmatches_starNoSlash as pre).mp hm with hm1 | ⟨x1, t1, rfl, hx1, hm1⟩
            · exact Or.inl ⟨pre, post, hsplit, hm1⟩
            · simp only [List.cons_append, List.cons.injEq] at hsplit
              obtain ⟨rfl, rfl⟩ := hsplit
              exact Or.inr ⟨hx1, t1, post, rfl, hm1⟩
      | starAny =>
        have hfuel1 : as.length + s.length < fuel := by
          simp only [List.length_cons] at h; omega
        cases s with
        | nil =>
          rw [show gmatchAux (fuel + 1) (GAtom.starAny :: as) []
              = (gmatchAux fuel as [] || false) from rfl]
          rw [exists_split_nil, gmatches_starAny]
          simp only [Bool.or_false, ih as [] hfuel1, exists_split_nil]
          constructor
          · exact fun hm => Or.inl hm
          · rintro (hm | ⟨x, t, ht, -⟩)
            · exact hm
            · exact List.noConfusion ht
        | cons x t =>
          rw [show gmatchAux (fuel + 1) (GAtom.starAny :: as) (x :: t)
              = (gmatchAux fuel as (x :: t)
                  || (!(isLineTerm x) && gmatchAux fuel (GAtom.starAny :: as) t)) from rfl]
          have hfuel2 : (GAtom.starAny :: as).length + t.length < fuel := by
            simp only [List.length_cons] at h ⊢; omega
          simp only [Bool.or_eq_true, Bool.and_eq_true, Bool.not_eq_true',
            ih as (x :: t) hfuel1, ih _ t hfuel2]
          constructor
          · rintro (⟨pre, post, hsplit, hm⟩ | ⟨hx, pre, post, rfl, hm⟩)
            · exact ⟨pre, post, hsplit, (gmatches_starAny as pre).mpr (Or.inl hm)⟩
            · exact ⟨x :: pre, post, rfl,
                (gmatches_starAny as (x :: pre)).mpr (Or.inr ⟨x, pre, rfl, hx, hm⟩)⟩
          · rintro ⟨pre, post, hsplit, hm⟩
            rcases (gmatches_starAny as pre).mp hm with hm1 | ⟨x1, t1, rfl, hx1, hm1⟩
            · exact Or.inl ⟨pre, post, hsplit, hm1⟩
            · simp only [List.cons_append, List.cons.injEq] at hsplit
              obtain ⟨rfl, rfl⟩ := hsplit
              exact Or.inr ⟨hx1, t1, post, rfl, hm1⟩

theorem gmatch_iff (as : List GAtom) (s : List Char) :
    gmatch as s = true ↔ ∃ pre post, s = pre ++ post ∧ GMatches as pre :=
  gmatchAux_iff _ as s (by omega)

theorem regexTestAux_iff (as : List GAtom) (s : List Char) :
    regexTestAux as s = true ↔ ∃ s1 s2 s3, s = s1 ++ s2 ++ s3 ∧ GMatches as s2 := by
  induction s with
  | nil =>
    simp only [regexTestAux, gmatch_iff]
    constructor
    · rintro ⟨pre, post, hsplit, hm⟩
      rcases List.append_eq_nil.mp hsplit.symm with ⟨rfl, rfl⟩
      exact ⟨[], [], [], rfl, hm⟩
    · rintro ⟨s1, s2, s3, hsplit, hm⟩
      have h1 := List.append_eq_nil.mp hsplit.symm
      rcases List.append_eq_nil.mp h1.1 with ⟨rfl, rfl⟩
      exact ⟨[], [], rfl, hm⟩
  | cons x t ih =>
    simp only [regexTestAux, Bool.or_eq_true, gmatch_iff, ih]
    constructor
    · rintro (⟨pre, post, hsplit, hm⟩ | ⟨s1, s2, s3, rfl, hm⟩)
      · exact ⟨[], pre, post, by simpa using hsplit, hm⟩
      · exact ⟨x :: s1, s2, s3, rfl, hm⟩
    · rintro ⟨s1, s2, s3, hsplit, hm⟩
      cases s1 with
      | nil => exact Or.inl ⟨s2, s3, by simpa using hsplit, hm⟩
      | cons y s1' =>
        simp only [List.cons_append, List.cons.injEq] at hsplit
        exact Or.inr ⟨s1', s2, s3, hsplit.2, hm⟩

theorem gmatchFullAux_iff : ∀ (fuel : Nat) (as : List GAtom) (s : List Char),
    as.length + s.length < fuel →
    (gmatchFullAux fuel as s = true ↔ GMatches as s) := by
  intro fuel
  induction fuel with
  | zero => intro as s h; exact absurd h (Nat.not_lt_zero _)
  | succ fuel ih =>
    intro as s h
    cases as with
    | nil =>
      cases s with
      | nil => exact iff_of_true rfl rfl
      | cons x t =>
        exact iff_of_false (by simp [gmatchFullAux]) (fun hm => List.noConfusion hm)
    | cons a as =>
      cases a with
      | lit c =>
        cases s with
        | nil =>
          refine iff_of_false (by simp [gmatchFullAux]) ?_
          rw [gmatches_lit_iff]
          rintro ⟨t, ht, -⟩; exact List.noConfusion ht
        | cons x t =>
          have hfuel : as.length + t.length < fuel := by
            simp only [List.length_cons] at h; omega
          rw [show gmatchFullAux (fuel + 1) (GAtom.lit c :: as) (x :: t)
              = (decide (x = c) && gmatchFullAux fuel as t) from rfl]
          rw [gmatches_lit_iff]
          simp only [Bool.and_eq_true, decide_eq_true_eq, ih as t hfuel]
          constructor
          · rintro ⟨rfl, hm⟩; exact ⟨t, rfl, hm⟩
          · rintro ⟨t1, ht1, hm⟩
            obtain ⟨rfl, rfl⟩ : x = c ∧ t = t1 := by
              simpa using congrArg (fun l => (l.head?, l.tail)) ht1
            exact ⟨rfl, hm⟩
      | anyCh =>
        cases s with
        | nil =>
          refine iff_of_false (by simp [gmatchFullAux]) ?_
          rw [gmatches_anyCh_iff]
          rintro ⟨x, t, ht, -⟩; exact List.noConfusion ht
        | cons x t =>
          have hfuel : as.length + t.length < fuel := by
            simp only [List.length_cons] at h; omega
          rw [show gmatchFullAux (fuel + 1) (GAtom.anyCh :: as) (x :: t)
              = (!(isLineTerm x) && gmatchFullAux fuel as t) from rfl]
          rw [gmatches_anyCh_iff]
          simp only [Bool.and_eq_true, Bool.not_eq_true', ih as t hfuel]
          constructor
          · rintro ⟨hx, hm⟩; exact ⟨x, t, rfl, hx, hm⟩
          · rintro ⟨x1, t1, ht1, hx, hm⟩
            obtain ⟨rfl, rfl⟩ : x = x1 ∧ t = t1 := by
              simpa using congrArg (fun l => (l.head?, l.tail)) ht1
            exact ⟨hx, hm⟩
      | starNoSlash =>
        have hfuel1 : as.length + s.length < fuel := by
          simp only [List.length_cons] at h; omega
        rw [gmatches_starNoSlash]
        cases s with
        | nil =>
          rw [show gmatchFullAux (fuel + 1) (GAtom.starNoSlash :: as) []
              = (gmatchFullAux fuel as [] || false) from rfl]
          simp only [Bool.or_false, ih as [] hfuel1]
          constructor
          · exact fun hm => Or.inl hm
          · rintro (hm | ⟨x, t, ht, -⟩)
            · exact hm
            · exact List.noConfusion ht
        | cons x t =>
          rw [show gmatchFullAux (fuel + 1) (GAtom.starNoSlash :: as) (x :: t)
              = (gmatchFullAux fuel as (x :: t)
                  || (!(x = '/') && gmatchFullAux fuel (GAtom.starNoSlash :: as) t)) from rfl]
          have hfuel2 : (GAtom.starNoSlash :: as).length + t.length < fuel := by
            simp only [List.length_cons] at h ⊢; omega
          simp only [Bool.or_eq_true, Bool.and_eq_true, Bool.not_eq_true',
            decide_eq_false_iff_not, ih as (x :: t) hfuel1, ih _ t hfuel2]
          constructor
          · rintro (hm | ⟨hx, hm⟩)
            · exact Or.inl hm
            · exact Or.inr ⟨x, t, rfl, hx, hm⟩
          · rintro (hm | ⟨x1, t1, ht1, hx, hm⟩)
            · exact Or.inl hm
            · obtain ⟨rfl, rfl⟩ : x = x1 ∧ t = t1 := by
                simpa using congrArg (fun l => (l.head?, l.tail)) ht1
              exact Or.inr ⟨hx, hm⟩
      | starAny =>
        have hfuel1 : as.length + s.length < fuel := by
          simp only [List.length_cons] at h; omega
        rw [gmatches_starAny]
        cases s with
        | nil =>
          rw [show gmatchFullAux (fuel + 1) (GAtom.starAny :: as) []
              = (gmatchFullAux fuel as [] || false) from rfl]
          simp only [Bool.or_false, ih as [] hfuel1]
          constructor
          · exact fun hm => Or.inl hm
          · rintro (hm | ⟨x, t, ht, -⟩)
            · exact hm
            · exact List.noConfusion ht
        | cons x t =>
          rw [show gmatchFullAux (fuel + 1) (GAtom.starAny :: as) (x :: t)
              = (gmatchFullAux fuel as (x :: t)
                  || (!(isLineTerm x) && gmatchFullAux fuel (GAtom.starAny :: as) t)) from rfl]
          have hfuel2 : (GAtom.starAny :: as).length + t.length < fuel := by
            simp only [List.length_cons] at h ⊢; omega
          simp only [Bool.or_eq_true, Bool.and_eq_true, Bool.not_eq_true',
            ih as (x :: t) hfuel1, ih _ t hfuel2]
          constructor
          · rintro (hm | ⟨hx, hm⟩)
            · exact Or.inl hm
            · exact Or.inr ⟨x, t, rfl, hx, hm⟩
          · rintro (hm | ⟨x1, t1, ht1, hx, hm⟩)
            · exact Or.inl hm
            · obtain ⟨rfl, rfl⟩ : x = x1 ∧ t = t1 := by
                simpa using congrArg (fun l => (l.head?, l.tail)) ht1
              exact Or.inr ⟨hx, hm⟩

theorem gmatchFull_iff (as : List GAtom) (s : List Char) :
    gmatchFull as s = true ↔ GMatches as s :=
  gmatchFullAux_iff _ as s (by omega)

/-- Claim C1 (counterexample): the translated pattern is not anchored.  The
pattern `a` translates to the single literal atom `a`; the path `ba` does not
as a whole satisfy that pattern, yet `matchesPattern` selects it (the match
succeeds on the proper substring `a`). -/
theorem matchesPattern_not_anchored_cex :
    globTranslate ['a'] = some [GAtom.lit 'a'] ∧
    SkillLoader.matchesPattern ['b', 'a'] ['a'] = true ∧
    ¬ GMatches [GAtom.lit 'a'] ['b', 'a'] := by
  refine ⟨by decide, by decide, ?_⟩
  rw [← gmatchFull_iff]
  decide

/-- Claim C1 (amended): for every file path and every trigger pattern in the
modelled glob fragment, the translation is as stated (`**` any sequence of
non-line-terminators, `*` any sequence excluding `/`, `?` one character), but
the resulting pattern is unanchored: the pattern selects the path if and only
if some contiguous substring of the path — not necessarily the whole path —
satisfies the translated pattern. -/
theorem SkillLoader.matchesPattern_selects_iff_substring
    (filePath pattern : List Char) (as : List GAtom)
    (h : globTranslate pattern = some as) :
    SkillLoader.matchesPattern filePath pattern = true ↔
      ∃ s1 s2 s3, filePath = s1 ++ s2 ++ s3 ∧ GMatches as s2 := by
  rw [show SkillLoader.matchesPattern filePath pattern = regexTestAux as filePath by
    simp [SkillLoader.matchesPattern, h]]
  exact regexTestAux_iff as filePath

/-- Concrete instance of the amended C1 statement. -/
theorem SkillLoader.matchesPattern_selects_iff_substring_witness :
    SkillLoader.matchesPattern ['b', 'a'] ['a'] = true :=
  (SkillLoader.matchesPattern_selects_iff_substring ['b', 'a'] ['a'] [GAtom.lit 'a']
      (by decide)).mpr
    ⟨['b'], ['a'], [], rfl, ⟨[], rfl, rfl⟩⟩

theorem keywordIn_iff (body : List Char) (kw : String) :
    KeywordIn body kw ↔ containsSub (lowerStr body) kw.data = true :=
  (containsSub_iff _ _).symm

/-- Claim C10: severity inference gives danger keywords precedence over
soft-recommendation keywords: a lowercased body containing "security",
"vulnerability" or "critical" maps to error even when "should", "consider"
or "might" also appear; warning is returned exactly when a soft keyword
appears and no danger keyword does; otherwise info. -/
theorem detectSeverity_keyword_precedence (body : List Char) :
    (detectSeverity body = .error ↔ DangerIn body) ∧
    (detectSeverity body = .warning ↔ ¬ DangerIn body ∧ SoftIn body) ∧
    (detectSeverity body = .info ↔ ¬ DangerIn body ∧ ¬ SoftIn body) := by
  have hd : DangerIn body ↔ (containsSub (lowerStr body) "security".data
      || containsSub (lowerStr body) "vulnerability".data
      || containsSub (lowerStr body) "critical".data) = true := by
    simp only [DangerIn, keywordIn_iff, Bool.or_eq_true, or_assoc]
  have hs : SoftIn body ↔ (containsSub (lowerStr body) "should".data
      || containsSub (lowerStr body) "consider".data
      || containsSub (lowerStr body) "might".data) = true := by
    simp only [SoftIn, keywordIn_iff, Bool.or_eq_true, or_assoc]
  unfold detectSeverity
  by_cases h1 : (containsSub (lowerStr body) "security".data
      || containsSub (lowerStr body) "vulnerability".data
      || containsSub (lowerStr body) "critical".data) = true
  · simp [h1, hd, hs]
  · by_cases h2 : (containsSub (lowerStr body) "should".data
        || containsSub (lowerStr body) "consider".data
        || containsSub (lowerStr body) "might".data) = true
    · simp [h1, h2, hd, hs]
    · simp [h1, h2, hd, hs]

theorem truncGo_spec (B cs : Nat) (fs : List FileDiff) :
    ∃ pre suf, fs = pre ++ suf ∧
      truncGo B cs fs = pre ++ (suf.take 1).map markFile ∧
      (pre = [] ∨ cs + sizeSum pre ≤ B) ∧
      ∀ g ∈ suf.take 1, B < cs + sizeSum pre + fileSize g := by
  induction fs generalizing cs with
  | nil => exact ⟨[], [], rfl, rfl, Or.inl rfl, by simp⟩
  | cons f fs ih =>
    by_cases h : B < cs + fileSize f
    · refine ⟨[], f :: fs, rfl, ?_, Or.inl rfl, ?_⟩
      · simp [truncGo, h]
      · intro g hg
        simp only [List.take_succ_cons, List.take_zero, List.mem_singleton] at hg
        subst hg
        simpa [sizeSum] using h
    · obtain ⟨pre, suf, hsplit, hrun, hbound, hover⟩ := ih (cs + fileSize f)
      refine ⟨f :: pre, suf, by simp [hsplit], ?_, ?_, ?_⟩
      · simp only [truncGo, if_neg h, hrun, List.cons_append]
      · right
        rcases hbound with rfl | hb
        · simpa [sizeSum] using Nat.le_of_not_lt h
        · simpa [sizeSum, Nat.add_assoc] using hb
      · intro g hg
        have := hover g hg
        simpa [sizeSum, Nat.add_assoc] using this

/-- Claim C3: for every diff and budget, the total hunk-content character
count emitted by `truncateDiff` is at most the budget plus the fixed
truncation-marker length; included files keep their hunks whole (they are
unchanged input files), the first file whose size would push the running
total over the budget is replaced by a single marker hunk, and no further
files are included. -/
theorem ContextBuilder.truncateDiff_budget (B : Nat) (diff : Diff) :
    sizeSum (ContextBuilder.truncateDiff B diff).files ≤ B + truncationMarker.length ∧
    ∃ pre suf, diff.files = pre ++ suf ∧
      (ContextBuilder.truncateDiff B diff).files = pre ++ (suf.take 1).map markFile ∧
      sizeSum pre ≤ B ∧
      ∀ g ∈ suf.take 1, B < sizeSum pre + fileSize g := by
  obtain ⟨pre, suf, hsplit, hrun, hbound, hover⟩ := truncGo_spec B 0 diff.files
  have hpre : sizeSum pre ≤ B := by
    rcases hbound with rfl | hb
    · simp [sizeSum]
    · simpa using hb
  have hfiles : (ContextBuilder.truncateDiff B diff).files = pre ++ (suf.take 1).map markFile := by
    simpa [ContextBuilder.truncateDiff] using hrun
  refine ⟨?_, pre, suf, hsplit, hfiles, hpre, fun g hg => by simpa using hover g hg⟩
  rw [hfiles]
  have hmark : sizeSum ((suf.take 1).map markFile) ≤ truncationMarker.length := by
    cases suf with
    | nil => simp [sizeSum]
    | cons g gs => simp [sizeSum, markFile, fileSize, markerHunk]
  calc sizeSum (pre ++ (suf.take 1).map markFile)
      = sizeSum pre + sizeSum ((suf.take 1).map markFile) := by
        simp [sizeSum]
    _ ≤ B + truncationMarker.length := Nat.add_le_add hpre hmark

theorem enumSkillsFrom_fst_le (l : List Skill) :
    ∀ k p, p ∈ enumSkillsFrom k l → k ≤ p.1 := by
  induction l with
  | nil => intro k p hp; simp [enumSkillsFrom] at hp
  | cons sk l ih =>
    intro k p hp
    rcases List.mem_cons.mp hp with rfl | hp'
    · exact Nat.le_refl k
    · exact Nat.le_of_succ_le (ih (k + 1) p hp')

theorem enumSkillsFrom_fst_inj (l : List Skill) :
    ∀ k p q, p ∈ enumSkillsFrom k l → q ∈ enumSkillsFrom k l → p.1 = q.1 → p = q := by
  induction l with
  | nil => intro k p q hp; simp [enumSkillsFrom] at hp
  | cons sk l ih =>
    intro k p q hp hq hpq
    rcases List.mem_cons.mp hp with rfl | hp' <;> rcases List.mem_cons.mp hq with rfl | hq'
    · rfl
    · exfalso
      have hle := enumSkillsFrom_fst_le l (k + 1) q hq'
      simp only at hpq
      omega
    · exfalso
      have hle := enumSkillsFrom_fst_le l (k + 1) p hp'
      simp only at hpq
      omega
    · exact ih (k + 1) p q hp' hq' hpq

theorem addMatched_eq (path : List Char) (l : List Skill) :
    ∀ k acc, addMatched path acc (enumSkillsFrom k l)
      = acc ++ ((enumSkillsFrom k l).filter
          (fun p => skillTriggerHit path p.2 && !(decide (p.1 ∈ acc)))).map (·.1) := by
  induction l with
  | nil => intro k acc; simp [addMatched, enumSkillsFrom]
  | cons sk l ih =>
    intro k acc
    show addMatched path acc ((k, sk) :: enumSkillsFrom (k + 1) l) = _
    by_cases hc : (skillTriggerHit path sk && !(decide (k ∈ acc))) = true
    · have h1 : addMatched path acc ((k, sk) :: enumSkillsFrom (k + 1) l)
          = addMatched path (acc ++ [k]) (enumSkillsFrom (k + 1) l) := by
        simp only [addMatched, List.foldl_cons]
        congr 1
        simp [hc]
      rw [h1, ih (k + 1) (acc ++ [k])]
      have h2 : (enumSkillsFrom (k + 1) l).filter
            (fun p => skillTriggerHit path p.2 && !(decide (p.1 ∈ acc ++ [k])))
          = (enumSkillsFrom (k + 1) l).filter
            (fun p => skillTriggerHit path p.2 && !(decide (p.1 ∈ acc))) := by
        apply List.filter_congr
        intro p hp
        have hle := enumSkillsFrom_fst_le l (k + 1) p hp
        have hmem : (p.1 ∈ acc ++ [k]) ↔ (p.1 ∈ acc) := by
          simp only [List.mem_append, List.mem_singleton]
          constructor
          · rintro (h | rfl)
            · exact h
            · omega
          · exact Or.inl
        simp [hmem]
      rw [h2]
      simp [enumSkillsFrom, List.filter_cons, hc, List.append_assoc]
    · have h1 : addMatched path acc ((k, sk) :: enumSkillsFrom (k + 1) l)
          = addMatched path acc (enumSkillsFrom (k + 1) l) := by
        simp only [addMatched, List.foldl_cons]
        congr 1
        simp only [Bool.not_eq_true] at hc
        simp [hc]
      rw [h1, ih (k + 1) acc]
      have hcf : (skillTriggerHit path sk && !(decide (k ∈ acc))) = false :=
        Bool.eq_false_iff.mpr hc
      simp [enumSkillsFrom, List.filter_cons, hcf]

theorem matchFold_spec (skills : List Skill) :
    ∀ (rest : List (List Char)) (done : List (List Char)) (acc : List Nat),
      (∀ p ∈ enumSkillsFrom 0 skills,
          (p.1 ∈ acc) ↔ done.any (fun q => skillTriggerHit q p.2) = true) →
      rest.foldl (fun acc path => addMatched path acc (enumSkillsFrom 0 skills)) acc
        = acc ++ List.flatten (matchSkillsSpecGo skills done rest) := by
  intro rest
  induction rest with
  | nil => intro done acc hacc; simp [matchSkillsSpecGo]
  | cons path rest ih =>
    intro done acc hacc
    rw [List.foldl_cons, addMatched_eq path skills 0 acc]
    have hfilt : (enumSkillsFrom 0 skills).filter
          (fun p => skillTriggerHit path p.2 && !(decide (p.1 ∈ acc)))
        = (enumSkillsFrom 0 skills).filter
          (fun p => skillTriggerHit path p.2 && !(done.any (fun q => skillTriggerHit q p.2))) := by
      apply List.filter_congr
      intro p hp
      have hiff := hacc p hp
      have hb : decide (p.1 ∈ acc) = done.any (fun q => skillTriggerHit q p.2) := by
        by_cases hm : p.1 ∈ acc
        · rw [decide_eq_true hm, Eq.comm]
          exact hiff.mp hm
        · rw [decide_eq_false hm]
          cases h2 : done.any (fun q => skillTriggerHit q p.2)
          · rfl
          · exact absurd (hiff.mpr h2) hm
      rw [hb]
    rw [hfilt]
    rw [ih (done ++ [path])
        (acc ++ ((enumSkillsFrom 0 skills).filter
          (fun p => skillTriggerHit path p.2
            && !(done.any (fun q => skillTriggerHit q p.2)))).map (·.1)) ?_]
    · simp [matchSkillsSpecGo, List.append_assoc]
    · intro p hp
      have hiff := hacc p hp
      have hmemG : p.1 ∈ ((enumSkillsFrom 0 skills).filter
            (fun p => skillTriggerHit path p.2
              && !(done.any (fun q => skillTriggerHit q p.2)))).map (·.1)
          ↔ (skillTriggerHit path p.2
              && !(done.any (fun q => skillTriggerHit q p.2))) = true := by
        simp only [List.mem_map, List.mem_filter]
        constructor
        · rintro ⟨q, ⟨hqE, hqc⟩, hqp⟩
          have hq : q = p := enumSkillsFrom_fst_inj skills 0 q p hqE hp hqp
          rw [hq] at hqc
          exact hqc
        · intro hcp
          exact ⟨p, ⟨hp, hcp⟩, rfl⟩
      rw [List.mem_append, hiff, hmemG]
      simp only [List.any_append, List.any_cons, List.any_nil, Bool.or_false, Bool.or_eq_true,
        Bool.and_eq_true, Bool.not_eq_true']
      constructor
      · rintro (hD | ⟨hH, hnD⟩)
        · exact Or.inl hD
        · exact Or.inr hH
      · rintro (hD | hH)
        · exact Or.inl hD
        · by_cases hD2 : done.any (fun q => skillTriggerHit q p.2) = true
          · exact Or.inl hD2
          · exact Or.inr ⟨hH, Bool.eq_false_iff.mpr hD2⟩

theorem matchSkillsIdx_eq_spec (skills : List Skill) (paths : List (List Char)) :
    matchSkillsIdx skills paths = matchSkillsSpec skills paths := by
  unfold matchSkillsIdx matchSkillsSpec
  rw [matchFold_spec skills paths [] []]
  · simp
  · intro p hp
    simp

theorem priorityOrder_le_three (pr : Priority) : priorityOrder pr ≤ 3 := by
  cases pr <;> simp [priorityOrder]

theorem insertByPriorityDesc_skip (x : Skill) :
    ∀ (ys zs : List Skill), (∀ y ∈ ys, priorityOrder x.priority < priorityOrder y.priority) →
      insertByPriorityDesc x (ys ++ zs) = ys ++ insertByPriorityDesc x zs := by
  intro ys
  induction ys with
  | nil => intro zs _; simp
  | cons y ys ih =>
    intro zs hy
    have hlt : ¬ (priorityOrder y.priority ≤ priorityOrder x.priority) := by
      have := hy y (by simp)
      omega
    simp only [List.cons_append, insertByPriorityDesc, if_neg hlt, List.append_eq]
    rw [ih zs (fun y' hy' => hy y' (List.mem_cons_of_mem y hy'))]

theorem insertByPriorityDesc_front (x : Skill) (zs : List Skill)
    (h : ∀ z ∈ zs.head?, priorityOrder z.priority ≤ priorityOrder x.priority) :
    insertByPriorityDesc x zs = x :: zs := by
  cases zs with
  | nil => rfl
  | cons z zs => simp only [insertByPriorityDesc, if_pos (h z rfl)]

theorem sortByPriorityDesc_eq_filters (l : List Skill) :
    sortByPriorityDesc l
      = l.filter (fun sk => sk.priority == Priority.high)
        ++ l.filter (fun sk => sk.priority == Priority.medium)
        ++ l.filter (fun sk => sk.priority == Priority.low) := by
  induction l with
  | nil => rfl
  | cons x xs ih =>
    show insertByPriorityDesc x (sortByPriorityDesc xs) = _
    rw [ih]
    have hmemH : ∀ y ∈ xs.filter (fun sk => sk.priority == Priority.high),
        y.priority = Priority.high := by
      intro y hy
      have := (List.mem_filter.mp hy).2
      simpa using this
    have hmemM : ∀ y ∈ xs.filter (fun sk => sk.priority == Priority.medium),
        y.priority = Priority.medium := by
      intro y hy
      have := (List.mem_filter.mp hy).2
      simpa using this
    have hmemL : ∀ y ∈ xs.filter (fun sk => sk.priority == Priority.low),
        y.priority = Priority.low := by
      intro y hy
      have := (List.mem_filter.mp hy).2
      simpa using this
    cases hx : x.priority
    case high =>
      rw [insertByPriorityDesc_front x _ ?_]
      · simp [List.filter_cons, hx]
      · intro z hz
        rw [hx]
        exact le_trans (priorityOrder_le_three z.priority) (by simp [priorityOrder])
    case medium =>
      rw [List.append_assoc, insertByPriorityDesc_skip x _ _ ?_]
      · rw [insertByPriorityDesc_front x _ ?_]
        · simp [List.filter_cons, hx, List.append_assoc]
        · intro z hz
          have hz' := List.mem_of_mem_head? hz
          rw [hx]
          rcases List.mem_append.mp hz' with hzM | hzL
          · rw [hmemM z hzM]
          · rw [hmemL z hzL]; simp [priorityOrder]
      · intro y hy
        rw [hx, hmemH y hy]
        simp [priorityOrder]
    case low =>
      rw [insertByPriorityDesc_skip x _ _ ?_]
      · rw [insertByPriorityDesc_front x _ ?_]
        · simp [List.filter_cons, hx, List.append_assoc]
        · intro z hz
          have hz' := List.mem_of_mem_head? hz
          rw [hx, hmemL z hz']
      · intro y hy
        rw [hx]
        rcases List.mem_append.mp hy with hyH | hyM
        · rw [hmemH y hyH]; simp [priorityOrder]
        · rw [hmemM y hyM]; simp [priorityOrder]

/-- Claim C2 (counterexample): the sequence returned by `matchSkills` is not
sorted by priority descending.  With a low-priority skill triggered by the
first path and a high-priority skill triggered only by the second path, the
low-priority skill precedes the high-priority one in the output, because the
`Set` collects hits in file-path order, not in priority order. -/
theorem matchSkills_priority_order_cex :
    (SkillLoader.matchSkills [cexSkillLow, cexSkillHigh] [['a'], ['b']]).map Skill.priority
      = [Priority.low, Priority.high] ∧
    ¬ List.Pairwise (fun a b => priorityOrder b.priority ≤ priorityOrder a.priority)
        (SkillLoader.matchSkills [cexSkillLow, cexSkillHigh] [['a'], ['b']]) := by
  constructor
  · decide
  · decide

/-- Claim C2 (amended): the matched-skill sequence is ordered by the first
file path each skill matches (in path order), and skills first matched by
the same path appear in loaded order; the loaded order itself is the stable
priority-descending sort of the input skill list (all high-priority skills
in discovery order, then all medium, then all low).  The output is therefore
priority-sorted within each first-match group but not globally. -/
theorem SkillLoader.matchSkills_first_match_order
    (skills : List Skill) (paths : List (List Char)) :
    SkillLoader.matchSkills skills paths
      = (matchSkillsSpec (sortByPriorityDesc skills) paths).filterMap
          (fun i => (sortByPriorityDesc skills).get? i) ∧
    sortByPriorityDesc skills
      = skills.filter (fun sk => sk.priority == Priority.high)
        ++ skills.filter (fun sk => sk.priority == Priority.medium)
        ++ skills.filter (fun sk => sk.priority == Priority.low) := by
  constructor
  · unfold SkillLoader.matchSkills
    rw [matchSkillsIdx_eq_spec]
  · exact sortByPriorityDesc_eq_filters skills


/-- Claim C4 (counterexample): ignore filtering is not glob matching.  With
ignore entry `*.md`, the path `README.md` satisfies the glob under the §4.2
semantics, yet `build` keeps the file (and hands its path to skill
matching), because the filter tests literal substring containment and
`README.md` does not contain the literal text `*.md`. -/
theorem build_ignore_not_glob_cex :
    SkillLoader.matchesPattern "README.md".data "*.md".data = true ∧
    (ContextBuilder.buildCore cexIgnoreConfig [] [cexReadme] emptyDiff).files = [cexReadme] := by
  constructor
  · decide
  · decide

/-- Claim C4 (amended): context building removes exactly the files whose
path contains one of the configured ignore entries as a literal substring
(not glob matching); the surviving files, in order, form the context's file
list and their paths feed skill matching, and the diff is passed through
unfiltered (so truncation input is not affected by this filter). -/
theorem ContextBuilder.buildCore_filter (config : ReviewConfig) (skills : List Skill)
    (files : List FileInfo) (diff : Diff) :
    (ContextBuilder.buildCore config skills files diff).files
      = files.filter (fun f =>
          !(config.ignorePaths.any (fun ignore => containsSub f.path ignore))) ∧
    (∀ f : FileInfo,
      (config.ignorePaths.any (fun ignore => containsSub f.path ignore)) = true
        ↔ ∃ ignore ∈ config.ignorePaths, ∃ pre post, f.path = pre ++ ignore ++ post) ∧
    (ContextBuilder.buildCore config skills files diff).skills
      = SkillLoader.matchSkills skills
          (((ContextBuilder.buildCore config skills files diff).files).map (·.path)) ∧
    (ContextBuilder.buildCore config skills files diff).diff = diff := by
  refine ⟨rfl, ?_, rfl, rfl⟩
  intro f
  simp only [List.any_eq_true]
  constructor
  · rintro ⟨ignore, hmem, hc⟩
    obtain ⟨pre, post, hsplit⟩ := (containsSub_iff _ _).mp hc
    exact ⟨ignore, hmem, pre, post, hsplit⟩
  · rintro ⟨ignore, hmem, pre, post, hsplit⟩
    exact ⟨ignore, hmem, (containsSub_iff _ _).mpr ⟨pre, post, hsplit⟩⟩

theorem parseHunksGo_length (fuel : Nat) :
    ∀ s, (parseHunksGo fuel s).length = countHeadersGo fuel s := by
  induction fuel with
  | zero => intro s; rfl
  | succ fuel ih =>
    intro s
    cases h : findHunkHeader s with
    | none => simp [parseHunksGo, countHeadersGo, h]
    | some r =>
      obtain ⟨caps, rem⟩ := r
      simp [parseHunksGo, countHeadersGo, h, ih rem, Nat.add_comm]

theorem zip_getElem?_fst {α β : Type} :
    ∀ (l1 : List α) (l2 : List β) (i : Nat) (p : α × β),
      (l1.zip l2)[i]? = some p → l1[i]? = some p.1 := by
  intro l1
  induction l1 with
  | nil => intro l2 i p h; simp [List.zip] at h
  | cons a t1 ih =>
    intro l2 i p h
    cases l2 with
    | nil => simp [List.zip] at h
    | cons b t2 =>
      cases i with
      | zero =>
        simp only [List.zip_cons_cons, List.getElem?_cons_zero, Option.some.injEq] at h
        simp [← h]
      | succ i =>
        simp only [List.zip_cons_cons, List.getElem?_cons_succ] at h
        simpa using ih t2 i p h

/-- Claim C5: for every raw diff text and metadata list, each FileDiff that
`parseDiff` produces carries exactly as many hunks as there are hunk-header
occurrences in the per-file source block it was parsed from. -/
theorem GitHubAdapter.parseDiff_hunk_count (diffText : List Char) (filesData : List GhFileData)
    (i : Nat) (fd : FileDiff)
    (h : (GitHubAdapter.parseDiff diffText filesData)[i]? = some fd) :
    ∃ b, (splitDiffBlocks diffText)[i]? = some b ∧ fd.hunks.length = countHunkHeaders b := by
  unfold GitHubAdapter.parseDiff at h
  rw [List.getElem?_map] at h
  cases hz : ((splitDiffBlocks diffText).zip filesData)[i]? with
  | none => rw [hz] at h; exact Option.noConfusion h
  | some bf =>
    rw [hz] at h
    simp only [Option.map_some'] at h
    have hblk := zip_getElem?_fst _ _ _ _ hz
    refine ⟨bf.1, hblk, ?_⟩
    have hh : fd.hunks = GitHubAdapter.parseHunks bf.1 := by
      have := Option.some.inj h
      rw [← this]
    rw [hh]
    exact parseHunksGo_length _ _

/-- Concrete instance of C5: one block, one hunk header, one hunk. -/
theorem GitHubAdapter.parseDiff_hunk_count_witness :
    ∃ b, (splitDiffBlocks cexDiffText)[0]? = some b ∧
      cexFileDiff.hunks.length = countHunkHeaders b :=
  GitHubAdapter.parseDiff_hunk_count cexDiffText [cexFileData] 0 cexFileDiff (by decide)

/-- Claim C6 (counterexample): a hunk header that writes the start value 0
(the standard shape for a newly added file) yields `oldStart = 1`, not 0:
`parseInt('0')` is falsy, so `parseInt(oldStart) || 1` replaces it by the
default 1. -/
theorem parseHunks_zero_start_cex :
    matchHunkHeaderAt "@@ -0,0 +1,3 @@".data
      = some ({ oldStartRaw := 0, oldLinesRaw := some 0,
                newStartRaw := 1, newLinesRaw := some 3 }, []) ∧
    GitHubAdapter.parseHunks "@@ -0,0 +1,3 @@".data
      = [{ oldStart := 1, oldLines := 0, newStart := 1, newLines := 3, content := [] }] := by
  constructor
  · decide
  · decide

/-- Claim C6 (amended): for every hunk header the regex matches, the header
text decomposes as `@@ -` d1 [`,` d2] ` +` d3 [`,` d4] ` @@` with d1, d3
non-empty digit runs; the produced DiffHunk's `oldStart`/`newStart` equal the
numeric start values written in the header except that a written 0 becomes 1
(the falsy `|| 1` default), and a missing length field defaults to 0. -/
theorem digitSegment_decomp (u : List Char) :
    ∃ (o : Option (List Char)) (tail : List Char),
      (∀ d ∈ o, ∀ c ∈ d, isDigitChar c = true) ∧
      matchLenPart (u.dropWhile isDigitChar) = (o.map natOfDigits, tail) ∧
      u = u.takeWhile isDigitChar ++ lenPartChars o ++ tail := by
  by_cases hc : listStartsWith (u.dropWhile isDigitChar) [','] = true
  · obtain ⟨r', hr'⟩ := (listStartsWith_iff _ _).mp hc
    refine ⟨some (r'.takeWhile isDigitChar), r'.dropWhile isDigitChar, ?_, ?_, ?_⟩
    · intro d hd c hcmem
      obtain rfl : r'.takeWhile isDigitChar = d := by simpa using hd
      exact List.mem_takeWhile_imp hcmem
    · rw [matchLenPart, if_pos hc, hr']
      simp [List.takeWhile_append_dropWhile]
    · conv_lhs => rw [← List.takeWhile_append_dropWhile isDigitChar u]
      rw [hr', ← List.takeWhile_append_dropWhile isDigitChar r']
      simp [lenPartChars]
  · refine ⟨none, u.dropWhile isDigitChar, by simp, ?_, ?_⟩
    · rw [matchLenPart, if_neg hc]
      rfl
    · conv_lhs => rw [← List.takeWhile_append_dropWhile isDigitChar u]
      simp [lenPartChars]

/-- Claim C6 (amended): for every hunk header the regex matches, the header
text decomposes as `@@ -` d1 [`,` d2] ` +` d3 [`,` d4] ` @@` with d1, d3
non-empty digit runs; the produced DiffHunk's `oldStart`/`newStart` equal the
numeric start values written in the header except that a written 0 becomes 1
(the falsy `|| 1` default), and a missing length field defaults to 0. -/
theorem matchHunkHeaderAt_fields (s : List Char) (caps : HunkCaps) (rem : List Char)
    (h : matchHunkHeaderAt s = some (caps, rem)) :
    ∃ (d1 d3 : List Char) (o2 o4 : Option (List Char)),
      d1 ≠ [] ∧ (∀ c ∈ d1, isDigitChar c = true) ∧
      d3 ≠ [] ∧ (∀ c ∈ d3, isDigitChar c = true) ∧
      (∀ d ∈ o2, ∀ c ∈ d, isDigitChar c = true) ∧
      (∀ d ∈ o4, ∀ c ∈ d, isDigitChar c = true) ∧
      s = "@@ -".data ++ d1 ++ lenPartChars o2 ++ " +".data ++ d3 ++ lenPartChars o4
            ++ " @@".data ++ rem ∧
      caps = { oldStartRaw := natOfDigits d1, oldLinesRaw := o2.map natOfDigits,
               newStartRaw := natOfDigits d3, newLinesRaw := o4.map natOfDigits } ∧
      ∀ rawContent, mkHunk caps rawContent =
        { oldStart := if natOfDigits d1 = 0 then 1 else natOfDigits d1,
          oldLines := (o2.map natOfDigits).getD 0,
          newStart := if natOfDigits d3 = 0 then 1 else natOfDigits d3,
          newLines := (o4.map natOfDigits).getD 0,
          content := trimStr rawContent } := by
  rw [matchHunkHeaderAt] at h
  by_cases h1 : listStartsWith s "@@ -".data = true
  swap
  · rw [if_neg h1] at h; exact Option.noConfusion h
  rw [if_pos h1] at h
  obtain ⟨post, rfl⟩ := (listStartsWith_iff _ _).mp h1
  rw [show (4 : Nat) = ("@@ -".data).length from rfl, List.drop_left] at h
  by_cases h2 : (post.takeWhile isDigitChar).isEmpty = true
  · rw [if_pos h2] at h; exact Option.noConfusion h
  rw [if_neg h2] at h
  obtain ⟨o2, tail2, ho2dig, ho2eq, ho2split⟩ := digitSegment_decomp post
  rw [ho2eq] at h
  dsimp only at h
  by_cases h3 : listStartsWith tail2 " +".data = true
  swap
  · rw [if_neg h3] at h; exact Option.noConfusion h
  rw [if_pos h3] at h
  obtain ⟨post2, rfl⟩ := (listStartsWith_iff _ _).mp h3
  rw [show (2 : Nat) = (" +".data).length from rfl, List.drop_left] at h
  by_cases h4 : (post2.takeWhile isDigitChar).isEmpty = true
  · rw [if_pos h4] at h; exact Option.noConfusion h
  rw [if_neg h4] at h
  obtain ⟨o4, tail4, ho4dig, ho4eq, ho4split⟩ := digitSegment_decomp post2
  rw [ho4eq] at h
  dsimp only at h
  by_cases h5 : listStartsWith tail4 " @@".data = true
  swap
  · rw [if_neg h5] at h; exact Option.noConfusion h
  rw [if_pos h5] at h
  obtain ⟨post3, rfl⟩ := (listStartsWith_iff _ _).mp h5
  rw [show (3 : Nat) = (" @@".data).length from rfl, List.drop_left] at h
  have hinj := Option.some.inj h
  rw [Prod.mk.injEq] at hinj
  obtain ⟨hcaps, hrem⟩ := hinj
  refine ⟨post.takeWhile isDigitChar, post2.takeWhile isDigitChar, o2, o4,
    ?_, ?_, ?_, ?_, ho2dig, ho4dig, ?_, ?_, ?_⟩
  · simpa [List.isEmpty_iff] using h2
  · intro c hc; exact List.mem_takeWhile_imp hc
  · simpa [List.isEmpty_iff] using h4
  · intro c hc; exact List.mem_takeWhile_imp hc
  · conv_lhs => rw [ho2split, ho4split, hrem]
    simp [List.append_assoc]
  · exact hcaps.symm
  · intro rawContent
    rw [← hcaps]
    rfl

/-- Concrete instance of the amended C6 statement at the header `@@ -0,0 +1,3 @@`. -/
theorem matchHunkHeaderAt_fields_witness :
    ∃ (d1 d3 : List Char) (o2 o4 : Option (List Char)),
      d1 ≠ [] ∧ (∀ c ∈ d1, isDigitChar c = true) ∧
      d3 ≠ [] ∧ (∀ c ∈ d3, isDigitChar c = true) ∧
      (∀ d ∈ o2, ∀ c ∈ d, isDigitChar c = true) ∧
      (∀ d ∈ o4, ∀ c ∈ d, isDigitChar c = true) ∧
      "@@ -0,0 +1,3 @@".data = "@@ -".data ++ d1 ++ lenPartChars o2 ++ " +".data ++ d3
            ++ lenPartChars o4 ++ " @@".data ++ [] ∧
      ({ oldStartRaw := 0, oldLinesRaw := some 0, newStartRaw := 1, newLinesRaw := some 3 }
          : HunkCaps)
        = { oldStartRaw := natOfDigits d1, oldLinesRaw := o2.map natOfDigits,
            newStartRaw := natOfDigits d3, newLinesRaw := o4.map natOfDigits } ∧
      ∀ rawContent,
        mkHunk { oldStartRaw := 0, oldLinesRaw := some 0,
                 newStartRaw := 1, newLinesRaw := some 3 } rawContent =
          { oldStart := if natOfDigits d1 = 0 then 1 else natOfDigits d1,
            oldLines := (o2.map natOfDigits).getD 0,
            newStart := if natOfDigits d3 = 0 then 1 else natOfDigits d3,
            newLines := (o4.map natOfDigits).getD 0,
            content := trimStr rawContent } :=
  matchHunkHeaderAt_fields "@@ -0,0 +1,3 @@".data
    { oldStartRaw := 0, oldLinesRaw := some 0, newStartRaw := 1, newLinesRaw := some 3 }
    [] (by decide)

theorem dropWhile_append_all {p : Char → Bool} :
    ∀ (ws w : List Char), (∀ c ∈ ws, p c = true) →
      (ws ++ w).dropWhile p = w.dropWhile p := by
  intro ws
  induction ws with
  | nil => intro w _; rfl
  | cons c t ih =>
    intro w h
    rw [List.cons_append, List.dropWhile_cons, if_pos (h c (by simp))]
    exact ih w (fun c' hc' => h c' (by simp [hc']))

/-- Claim C7 (counterexample): a verdict token outside the accepted set can
yield `approve`.  On `VERDICT: approved` the whitespace-delimited token
after the marker is `approved`, which is none of approve, request_changes,
comment, yet the extracted verdict is `approve`, because the unanchored
alternative `approve` matches as a prefix of the token. -/
theorem extractVerdict_prefix_cex :
    extractVerdict cexApprovedResponse = Verdict.approve ∧
    (((cexApprovedResponse.drop 8).dropWhile (isWsChar ·)).takeWhile (fun c => !(isWsChar c))
        ≠ "approve".data ∧
     ((cexApprovedResponse.drop 8).dropWhile (isWsChar ·)).takeWhile (fun c => !(isWsChar c))
        ≠ "request_changes".data ∧
     ((cexApprovedResponse.drop 8).dropWhile (isWsChar ·)).takeWhile (fun c => !(isWsChar c))
        ≠ "comment".data) := by
  refine ⟨by decide, by decide, by decide, by decide⟩

/-- Claim C7 (amended): the verdict is extracted at the first position where
`VERDICT:` (case-insensitively) is followed, after whitespace, by one of the
accepted tokens as a case-insensitive prefix of the remaining text —
alternatives tried in the order approve, request_changes, comment; if no
position matches, the verdict falls back to `comment`.  In particular a
token that merely begins with an accepted token (such as `approved`) yields
that verdict rather than the fallback. -/
theorem extractVerdict_scan_spec (s : List Char) :
    ((∀ i, matchVerdictAt (s.drop i) = none) → extractVerdict s = .comment) ∧
    (∀ i v, matchVerdictAt (s.drop i) = some v →
      (∀ j, j < i → matchVerdictAt (s.drop j) = none) → extractVerdict s = v) ∧
    (∀ ws w, (∀ c ∈ ws, isWsChar c = true) →
      matchVerdictAt ("VERDICT:".data ++ ws ++ w)
        = (if startsWithCI (w.dropWhile (isWsChar ·)) "approve".data then some .approve
           else if startsWithCI (w.dropWhile (isWsChar ·)) "request_changes".data then
             some .request_changes
           else if startsWithCI (w.dropWhile (isWsChar ·)) "comment".data then some .comment
           else none)) := by
  refine ⟨?_, ?_, ?_⟩
  · intro h
    unfold extractVerdict
    induction s with
    | nil => rfl
    | cons c t ih =>
      have h0 : matchVerdictAt (c :: t) = none := by simpa using h 0
      unfold extractVerdictGo
      rw [h0]
      exact ih (fun i => by simpa [List.drop_succ_cons] using h (i + 1))
  · intro i v
    unfold extractVerdict
    induction s generalizing i with
    | nil =>
      intro h _
      rw [List.drop_nil, show matchVerdictAt [] = none from rfl] at h
      exact Option.noConfusion h
    | cons c t ih =>
      intro h hj
      cases i with
      | zero =>
        rw [List.drop_zero] at h
        unfold extractVerdictGo
        rw [h]
      | succ i =>
        have h0 : matchVerdictAt (c :: t) = none := by simpa using hj 0 (Nat.succ_pos i)
        unfold extractVerdictGo
        rw [h0]
        rw [List.drop_succ_cons] at h
        refine ih i h (fun j hji => ?_)
        have := hj (j + 1) (Nat.succ_lt_succ hji)
        simpa [List.drop_succ_cons] using this
  · intro ws w hws
    have hpre : startsWithCI ("VERDICT:".data ++ ws ++ w) "VERDICT:".data = true := by
      unfold startsWithCI lowerStr
      rw [List.append_assoc, List.map_append]
      exact (listStartsWith_iff _ _).mpr ⟨(ws ++ w).map lowerChar, rfl⟩
    rw [matchVerdictAt, if_pos hpre]
    have hdrop : ("VERDICT:".data ++ ws ++ w).drop 8 = ws ++ w := by
      rw [List.append_assoc, show (8 : Nat) = ("VERDICT:".data).length from rfl,
        List.drop_left]
    rw [hdrop, dropWhile_append_all ws w hws]

/-- Concrete instance of the amended C7 statement on `VERDICT: approved`. -/
theorem extractVerdict_scan_spec_witness :
    extractVerdict cexApprovedResponse = Verdict.approve :=
  (extractVerdict_scan_spec cexApprovedResponse).2.1 0 Verdict.approve (by decide)
    (fun j hj => absurd hj (Nat.not_lt_zero j))

/-- Claim C8 (counterexample): the cap is applied before validity filtering,
so an invalid comment inside the first max-many crowds out a valid one
beyond them.  The response yields an invalid first comment (empty body) and
a valid second one; with a maximum of 1 the final comment list is empty,
while the first 1 valid comments form a non-empty list. -/
theorem review_cap_before_filter_cex :
    (ReviewEngine.review 1 10 (parseReviewResponse cexResponse)).comments = [] ∧
    ((parseReviewResponse cexResponse).comments.filter validComment).take 1
      = [{ path := ['b'], line := 4, body := ['o', 'k'], severity := .info }] := by
  refine ⟨by decide, by decide⟩

/-- Claim C8 (amended): for every completion, the post-processed result's
comment list is the first max-many parsed comments with the invalid ones
(empty path, zero line, or empty body) then removed — capping happens before
validity filtering, so the result holds the valid comments among the first
max-many, not the first max-many valid comments; every surviving comment has
a non-empty path, positive line and non-empty body, and the suggestion list
is capped by truncating its tail. -/
theorem ReviewEngine.review_extract_spec (maxComments maxSuggestions : Nat)
    (response : List Char) :
    (ReviewEngine.review maxComments maxSuggestions (parseReviewResponse response)).comments
      = ((parseReviewResponse response).comments.take maxComments).filter validComment ∧
    (∀ c ∈ (ReviewEngine.review maxComments maxSuggestions
        (parseReviewResponse response)).comments,
      c.path ≠ [] ∧ 0 < c.line ∧ c.body ≠ []) ∧
    (ReviewEngine.review maxComments maxSuggestions (parseReviewResponse response)).suggestions
      = (parseReviewResponse response).suggestions.take maxSuggestions := by
  refine ⟨rfl, ?_, rfl⟩
  intro c hc
  have hv : validComment c = true := (List.mem_filter.mp hc).2
  unfold validComment at hv
  simp only [Bool.and_eq_true, Bool.not_eq_true'] at hv
  obtain ⟨⟨hp, hl⟩, hb⟩ := hv
  refine ⟨?_, ?_, ?_⟩
  · simpa [List.isEmpty_iff] using hp
  · exact Nat.pos_of_ne_zero (by simpa using hl)
  · simpa [List.isEmpty_iff] using hb

/-- Concrete instance of the amended C8 statement: the surviving comment of
the counterexample response has the three required fields. -/
theorem ReviewEngine.review_extract_spec_witness :
    (['b'] : List Char) ≠ [] ∧ 0 < (4 : Nat) ∧ (['o', 'k'] : List Char) ≠ [] :=
  (ReviewEngine.review_extract_spec 2 10 cexResponse).2.1
    { path := ['b'], line := 4, body := ['o', 'k'], severity := .info } (by decide)

theorem decDigitChar_spec (d : Nat) (h : d < 10) :
    isDigitChar (decDigitChar d) = true ∧ (decDigitChar d).toNat = 48 + d := by
  interval_cases d <;> exact ⟨by decide, by decide⟩

theorem natOfDigits_append_one (a : List Char) (c : Char) :
    natOfDigits (a ++ [c]) = natOfDigits a * 10 + (c.toNat - 48) := by
  unfold natOfDigits
  rw [List.foldl_append]
  rfl

theorem natToDigitsGo_spec : ∀ (fuel n : Nat), n < fuel →
    natToDigitsGo fuel n ≠ [] ∧ (∀ c ∈ natToDigitsGo fuel n, isDigitChar c = true) ∧
    natOfDigits (natToDigitsGo fuel n) = n := by
  intro fuel
  induction fuel with
  | zero => intro n h; exact absurd h (Nat.not_lt_zero n)
  | succ fuel ih =>
    intro n h
    by_cases h10 : n < 10
    · rw [natToDigitsGo, if_pos h10]
      obtain ⟨hd, ht⟩ := decDigitChar_spec n h10
      refine ⟨by simp, ?_, ?_⟩
      · intro c hc
        rw [List.mem_singleton.mp hc]
        exact hd
      · show natOfDigits ([] ++ [decDigitChar n]) = n
        rw [natOfDigits_append_one, ht]
        simp [natOfDigits]
    · rw [natToDigitsGo, if_neg h10]
      have hdiv : n / 10 < fuel := by
        have h1 : n / 10 < n := Nat.div_lt_self (by omega) (by omega)
        omega
      obtain ⟨hne, hdig, hval⟩ := ih (n / 10) hdiv
      have hmod : n % 10 < 10 := Nat.mod_lt n (by omega)
      obtain ⟨hd, ht⟩ := decDigitChar_spec (n % 10) hmod
      refine ⟨by simp, ?_, ?_⟩
      · intro c hc
        rcases List.mem_append.mp hc with hc1 | hc2
        · exact hdig c hc1
        · rw [List.mem_singleton.mp hc2]; exact hd
      · rw [natOfDigits_append_one, hval, ht]
        omega

theorem natToDigits_spec (n : Nat) :
    natToDigits n ≠ [] ∧ (∀ c ∈ natToDigits n, isDigitChar c = true) ∧
    natOfDigits (natToDigits n) = n :=
  natToDigitsGo_spec (n + 1) n (Nat.lt_succ_self n)

theorem takeWhile_append_of_all {p : Char → Bool} :
    ∀ (a b : List Char), (∀ c ∈ a, p c = true) →
      (a ++ b).takeWhile p = a ++ b.takeWhile p := by
  intro a
  induction a with
  | nil => intro b _; rfl
  | cons c t ih =>
    intro b h
    rw [List.cons_append, List.takeWhile_cons, if_pos (h c (by simp)), List.cons_append,
      ih b (fun c' hc' => h c' (by simp [hc']))]

theorem takeWhile_head_false {p : Char → Bool} (b : List Char)
    (h : ∀ c ∈ b.head?, p c = false) : b.takeWhile p = [] := by
  cases b with
  | nil => rfl
  | cons c t => rw [List.takeWhile_cons, if_neg (by simp [h c rfl])]

theorem parseNumberAt_roundtrip (n : Nat) (rest : List Char)
    (h : headNonDigit rest = true) :
    parseNumberAt (natToDigits n ++ rest) = some (n, rest) := by
  obtain ⟨hne, hdig, hval⟩ := natToDigits_spec n
  have hrest : rest.takeWhile isDigitChar = [] := by
    refine takeWhile_head_false rest ?_
    intro c hc
    cases rest with
    | nil => exact absurd hc (by simp)
    | cons c' t =>
      obtain rfl : c' = c := by simpa using hc
      simpa [headNonDigit] using h
  have htake : (natToDigits n ++ rest).takeWhile isDigitChar = natToDigits n := by
    rw [takeWhile_append_of_all _ _ hdig, hrest, List.append_nil]
  rw [parseNumberAt]
  simp only [htake]
  rw [if_neg (by simpa [List.isEmpty_iff] using hne), List.drop_left, hval]

theorem parseHex_hexDigitChar (a : Nat) (h : a < 16) :
    parseHex (hexDigitChar a) = some a := by
  interval_cases a <;> decide

theorem parseStringBody_quote (rest : List Char) :
    parseStringBody ('"' :: rest) = some ([], rest) := by
  rw [parseStringBody.eq_def]
  simp

theorem parseStringBody_esc (e uc : Char) (X : List Char)
    (he : ¬ e = 'u') (hu : unescapeChar e = some uc) :
    parseStringBody ('\\' :: e :: X)
      = (parseStringBody X).map (fun p => (uc :: p.1, p.2)) := by
  rw [parseStringBody.eq_def]
  simp [he, hu]

theorem parseStringBody_u (h1 h2 h3 h4 : Char) (a b cc d : Nat) (X : List Char)
    (e1 : parseHex h1 = some a) (e2 : parseHex h2 = some b)
    (e3 : parseHex h3 = some cc) (e4 : parseHex h4 = some d) :
    parseStringBody ('\\' :: 'u' :: h1 :: h2 :: h3 :: h4 :: X)
      = (parseStringBody X).map
          (fun p => (Char.ofNat (((a * 16 + b) * 16 + cc) * 16 + d) :: p.1, p.2)) := by
  rw [parseStringBody.eq_def]
  simp [e1, e2, e3, e4]

theorem parseStringBody_plain (c : Char) (X : List Char)
    (h1 : ¬ c = '"') (h2 : ¬ c = '\\') :
    parseStringBody (c :: X) = (parseStringBody X).map (fun p => (c :: p.1, p.2)) := by
  rw [parseStringBody.eq_def]
  simp only [if_neg h1, if_neg h2]

theorem parseStringBody_escape :
    ∀ (s rest : List Char), parseStringBody (escapeStr s ++ '"' :: rest) = some (s, rest) := by
  intro s
  induction s with
  | nil =>
    intro rest
    rw [show escapeStr [] = [] from rfl, List.nil_append, parseStringBody_quote]
  | cons c t ih =>
    intro rest
    have hstep : escapeStr (c :: t) = escapeChar c ++ escapeStr t := by
      simp [escapeStr]
    rw [hstep, List.append_assoc]
    rw [escapeChar]
    by_cases h1 : c = '"'
    · subst h1
      rw [if_pos rfl]
      show parseStringBody ('\\' :: '"' :: (escapeStr t ++ '"' :: rest)) = _
      rw [parseStringBody_esc '"' '"' _ (by decide) (by decide), ih rest]
      rfl
    · rw [if_neg h1]
      by_cases h2 : c = '\\'
      · subst h2
        rw [if_pos rfl]
        show parseStringBody ('\\' :: '\\' :: (escapeStr t ++ '"' :: rest)) = _
        rw [parseStringBody_esc '\\' '\\' _ (by decide) (by decide), ih rest]
        rfl
      · rw [if_neg h2]
        by_cases h3 : c = '\x08'
        · subst h3
          rw [if_pos rfl]
          show parseStringBody ('\\' :: 'b' :: (escapeStr t ++ '"' :: rest)) = _
          rw [parseStringBody_esc 'b' '\x08' _ (by decide) (by decide), ih rest]
          rfl
        · rw [if_neg h3]
          by_cases h4 : c = '\t'
          · subst h4
            rw [if_pos rfl]
            show parseStringBody ('\\' :: 't' :: (escapeStr t ++ '"' :: rest)) = _
            rw [parseStringBody_esc 't' '\t' _ (by decide) (by decide), ih rest]
            rfl
          · rw [if_neg h4]
            by_cases h5 : c = '\n'
            · subst h5
              rw [if_pos rfl]
              show parseStringBody ('\\' :: 'n' :: (escapeStr t ++ '"' :: rest)) = _
              rw [parseStringBody_esc 'n' '\n' _ (by decide) (by decide), ih rest]
              rfl
            · rw [if_neg h5]
              by_cases h6 : c = '\x0c'
              · subst h6
                rw [if_pos rfl]
                show parseStringBody ('\\' :: 'f' :: (escapeStr t ++ '"' :: rest)) = _
                rw [parseStringBody_esc 'f' '\x0c' _ (by decide) (by decide), ih rest]
                rfl
              · rw [if_neg h6]
                by_cases h7 : c = '\r'
                · subst h7
                  rw [if_pos rfl]
                  show parseStringBody ('\\' :: 'r' :: (escapeStr t ++ '"' :: rest)) = _
                  rw [parseStringBody_esc 'r' '\r' _ (by decide) (by decide), ih rest]
                  rfl
                · rw [if_neg h7]
                  by_cases h8 : c.toNat < 32
                  · rw [if_pos h8]
                    show parseStringBody ('\\' :: 'u' :: '0' :: '0' ::
                        hexDigitChar (c.toNat / 16) :: hexDigitChar (c.toNat % 16) ::
                        (escapeStr t ++ '"' :: rest)) = _
                    have hhi : c.toNat / 16 < 16 := by omega
                    have hlo : c.toNat % 16 < 16 := Nat.mod_lt _ (by omega)
                    rw [parseStringBody_u '0' '0' _ _ 0 0 (c.toNat / 16) (c.toNat % 16) _
                      (by decide) (by decide) (parseHex_hexDigitChar _ hhi)
                      (parseHex_hexDigitChar _ hlo), ih rest]
                    have harith : ((0 * 16 + 0) * 16 + c.toNat / 16) * 16 + c.toNat % 16
                        = c.toNat := by omega
                    rw [Option.map_some']
                    rw [harith, Char.ofNat_toNat]
                  · rw [if_neg h8]
                    show parseStringBody (c :: (escapeStr t ++ '"' :: rest)) = _
                    rw [parseStringBody_plain c _ h1 h2, ih rest]
                    rfl

theorem jsonSizeJ_pos (j : Json) : 1 ≤ jsonSizeJ j := by
  cases j <;> simp [jsonSizeJ]

theorem jsonSizeL_pos (l : JsonList) : 1 ≤ jsonSizeL l := by
  cases l <;> (simp [jsonSizeL]; try omega)

theorem jsonSizeF_pos (f : JsonFields) : 1 ≤ jsonSizeF f := by
  cases f <;> (simp [jsonSizeF]; try omega)

theorem digit_not_special (a : Char) (ha : isDigitChar a = true) :
    isJsonWs a = false ∧ a ≠ ']' ∧ a ≠ ',' ∧ a ≠ '\x7d' ∧ a ≠ '"' ∧ a ≠ '[' ∧ a ≠ '\x7b' := by
  refine ⟨?_, ?_, ?_, ?_, ?_, ?_, ?_⟩
  · cases hw : isJsonWs a
    · rfl
    · exfalso
      have hw' := hw
      simp only [isJsonWs, Bool.or_eq_true, decide_eq_true_eq, or_assoc] at hw'
      rcases hw' with rfl | rfl | rfl | rfl <;> simp [isDigitChar] at ha
  all_goals intro h; subst h; simp [isDigitChar] at ha

theorem serJson_head (ind : Nat) (j : Json) :
    ∃ c cs, serJson ind j = c :: cs ∧ isJsonWs c = false ∧ c ≠ ']' ∧ c ≠ ',' ∧ c ≠ '\x7d' := by
  cases j with
  | str s => exact ⟨'"', _, rfl, by decide, by decide, by decide, by decide⟩
  | num n =>
    obtain ⟨hne, hdig, -⟩ := natToDigits_spec n
    cases h : natToDigits n with
    | nil => exact absurd h hne
    | cons a b =>
      have ha : isDigitChar a = true := hdig a (by rw [h]; simp)
      obtain ⟨h1, h2, h3, h4, -⟩ := digit_not_special a ha
      exact ⟨a, b, by simp [serJson, h], h1, h2, h3, h4⟩
  | arr l =>
    cases l with
    | nil => exact ⟨'[', _, rfl, by decide, by decide, by decide, by decide⟩
    | cons x tl => exact ⟨'[', _, rfl, by decide, by decide, by decide, by decide⟩
  | obj f =>
    cases f with
    | nil => exact ⟨'\x7b', _, rfl, by decide, by decide, by decide, by decide⟩
    | cons k v tl => exact ⟨'\x7b', _, rfl, by decide, by decide, by decide, by decide⟩

theorem serElems_cons_head (ind : Nat) (x : Json) (tl : JsonList) :
    ∃ c cs, serElems ind (JsonList.cons x tl) = c :: cs ∧ isJsonWs c = false ∧
      c ≠ ']' ∧ c ≠ ',' ∧ c ≠ '\x7d' := by
  obtain ⟨c, cs, hser, hws, h1, h2, h3⟩ := serJson_head (ind + 1) x
  cases tl with
  | nil => exact ⟨c, _, by rw [serElems, hser]; rfl, hws, h1, h2, h3⟩
  | cons y tl2 => exact ⟨c, _, by rw [serElems, hser]; rfl, hws, h1, h2, h3⟩

theorem serFields_cons_head (ind : Nat) (k : List Char) (v : Json) (tl : JsonFields) :
    ∃ cs, serFields ind (JsonFields.cons k v tl) = '"' :: cs := by
  cases tl with
  | nil => exact ⟨_, by rw [serFields]; rfl⟩
  | cons k2 v2 tl2 => exact ⟨_, by rw [serFields]; rfl⟩

theorem skipJsonWs_cons_false (c : Char) (t : List Char) (h : isJsonWs c = false) :
    skipJsonWs (c :: t) = c :: t := by
  simp [skipJsonWs, List.dropWhile_cons, h]

theorem indentChars_ws (k : Nat) : ∀ c ∈ indentChars k, isJsonWs c = true := by
  intro c hc
  rw [List.eq_of_mem_replicate hc]
  decide

theorem skip_ws_prefix (pre X : List Char) (hpre : ∀ c ∈ pre, isJsonWs c = true) :
    skipJsonWs (pre ++ X) = skipJsonWs X :=
  dropWhile_append_all pre X hpre

mutual

theorem sizeJ_le_ser : ∀ (ind : Nat) (j : Json), jsonSizeJ j ≤ (serJson ind j).length
  | _, .str s => by simp [jsonSizeJ, serJson, quoteStr]
  | _, .num n => by
    obtain ⟨hne, -, -⟩ := natToDigits_spec n
    cases h : natToDigits n with
    | nil => exact absurd h hne
    | cons a b => simp [jsonSizeJ, serJson, h]
  | ind, .arr .nil => by simp [jsonSizeJ, jsonSizeL, serJson]
  | ind, .arr (.cons x tl) => by
    have h := sizeL_le_ser ind (JsonList.cons x tl)
    simp only [jsonSizeJ, serJson, List.length_cons, List.length_append]
    omega
  | ind, .obj .nil => by simp [jsonSizeJ, jsonSizeF, serJson]
  | ind, .obj (.cons k v tl) => by
    have h := sizeF_le_ser ind (JsonFields.cons k v tl)
    simp only [jsonSizeJ, serJson, List.length_cons, List.length_append]
    omega

theorem sizeL_le_ser : ∀ (ind : Nat) (l : JsonList), jsonSizeL l ≤ (serElems ind l).length + 1
  | _, .nil => by simp [jsonSizeL, serElems]
  | ind, .cons x .nil => by
    have hx := sizeJ_le_ser (ind + 1) x
    simp only [jsonSizeL, serElems, List.length_append, List.length_cons]
    omega
  | ind, .cons x (.cons y tl) => by
    have hx := sizeJ_le_ser (ind + 1) x
    have ht := sizeL_le_ser ind (JsonList.cons y tl)
    simp only [jsonSizeL, serElems, List.length_append, List.length_cons] at *
    omega

theorem sizeF_le_ser : ∀ (ind : Nat) (f : JsonFields), jsonSizeF f ≤ (serFields ind f).length + 1
  | _, .nil => by simp [jsonSizeF, serFields]
  | ind, .cons k v .nil => by
    have hv := sizeJ_le_ser (ind + 1) v
    simp only [jsonSizeF, serFields, List.length_append, List.length_cons]
    omega
  | ind, .cons k v (.cons k2 v2 tl) => by
    have hv := sizeJ_le_ser (ind + 1) v
    have ht := sizeF_le_ser ind (JsonFields.cons k2 v2 tl)
    simp only [jsonSizeF, serFields, List.length_append, List.length_cons] at *
    omega

end

theorem parseJsonValue_quote (fuel : Nat) (X : List Char) :
    parseJsonValue (fuel + 1) ('"' :: X)
      = (parseStringBody X).map (fun p => (Json.str p.1, p.2)) := by
  rw [parseJsonValue.eq_def]
  simp

theorem parseJsonValue_lbracket (fuel : Nat) (X : List Char) :
    parseJsonValue (fuel + 1) ('[' :: X)
      = (if listStartsWith (skipJsonWs X) [']'] then
          some (Json.arr JsonList.nil, (skipJsonWs X).drop 1)
        else (parseJsonElems fuel (skipJsonWs X)).map (fun p => (Json.arr p.1, p.2))) := by
  rw [parseJsonValue.eq_def]
  simp

theorem parseJsonValue_lbrace (fuel : Nat) (X : List Char) :
    parseJsonValue (fuel + 1) ('\x7b' :: X)
      = (if listStartsWith (skipJsonWs X) ['\x7d'] then
          some (Json.obj JsonFields.nil, (skipJsonWs X).drop 1)
        else (parseJsonFields fuel (skipJsonWs X)).map (fun p => (Json.obj p.1, p.2))) := by
  rw [parseJsonValue.eq_def]
  simp

theorem parseJsonValue_digit (fuel : Nat) (c : Char) (X : List Char)
    (h1 : ¬ c = '"') (h2 : ¬ c = '[') (h3 : ¬ c = '\x7b') (hd : isDigitChar c = true) :
    parseJsonValue (fuel + 1) (c :: X)
      = (parseNumberAt (c :: X)).map (fun p => (Json.num p.1, p.2)) := by
  rw [parseJsonValue.eq_def]
  simp [h1, h2, h3, hd]

theorem parseJsonElems_step (fuel : Nat) (s : List Char) (v : Json) (r : List Char)
    (h : parseJsonValue fuel s = some (v, r)) :
    parseJsonElems (fuel + 1) s
      = (if listStartsWith (skipJsonWs r) [','] then
          (parseJsonElems fuel (skipJsonWs ((skipJsonWs r).drop 1))).map
            (fun p => (JsonList.cons v p.1, p.2))
        else if listStartsWith (skipJsonWs r) [']'] then
          some (JsonList.cons v JsonList.nil, (skipJsonWs r).drop 1)
        else none) := by
  rw [parseJsonElems.eq_def]
  simp [h]

theorem parseJsonFields_step (fuel : Nat) (s key : List Char) (r1 : List Char)
    (hs : listStartsWith s ['"'] = true)
    (hkey : parseStringBody (s.drop 1) = some (key, r1))
    (hc : listStartsWith (skipJsonWs r1) [':'] = true)
    (v : Json) (r3 : List Char)
    (hv : parseJsonValue fuel (skipJsonWs ((skipJsonWs r1).drop 1)) = some (v, r3)) :
    parseJsonFields (fuel + 1) s
      = (if listStartsWith (skipJsonWs r3) [','] then
          (parseJsonFields fuel (skipJsonWs ((skipJsonWs r3).drop 1))).map
            (fun p => (JsonFields.cons key v p.1, p.2))
        else if listStartsWith (skipJsonWs r3) ['\x7d'] then
          some (JsonFields.cons key v JsonFields.nil, (skipJsonWs r3).drop 1)
        else none) := by
  rw [List.drop_one] at hkey
  rw [List.drop_one] at hv
  rw [parseJsonFields.eq_def]
  simp [hs, hkey, hc, hv]

theorem skipJsonWs_cons_true (c : Char) (t : List Char) (h : isJsonWs c = true) :
    skipJsonWs (c :: t) = skipJsonWs t := by
  simp [skipJsonWs, List.dropWhile_cons, h]

theorem parse_ser : ∀ fuel : Nat,
    (∀ (ind : Nat) (j : Json) (rest : List Char), jsonSizeJ j < fuel →
      headNonDigit rest = true →
      parseJsonValue fuel (serJson ind j ++ rest) = some (j, rest)) ∧
    (∀ (ind : Nat) (l : JsonList) (rest : List Char), jsonSizeL l < fuel →
      l ≠ JsonList.nil →
      parseJsonElems fuel (serElems ind l ++ rest) = some (l, rest)) ∧
    (∀ (ind : Nat) (f : JsonFields) (rest : List Char), jsonSizeF f < fuel →
      f ≠ JsonFields.nil →
      parseJsonFields fuel (serFields ind f ++ rest) = some (f, rest)) := by
  intro fuel
  induction fuel with
  | zero =>
    refine ⟨?_, ?_, ?_⟩
    · intro ind j rest h _
      exact absurd h (by have := jsonSizeJ_pos j; omega)
    · intro ind l rest h _
      exact absurd h (by have := jsonSizeL_pos l; omega)
    · intro ind f rest h _
      exact absurd h (by have := jsonSizeF_pos f; omega)
  | succ fuel ih =>
    obtain ⟨ihV, ihE, ihF⟩ := ih
    refine ⟨?_, ?_, ?_⟩
    · intro ind j rest hsz hnd
      cases j with
      | str s =>
        rw [show serJson ind (Json.str s) ++ rest = '"' :: (escapeStr s ++ '"' :: rest) by
          simp [serJson, quoteStr]]
        rw [parseJsonValue_quote, parseStringBody_escape]
        rfl
      | num n =>
        obtain ⟨hne, hdig, -⟩ := natToDigits_spec n
        cases hh : natToDigits n with
        | nil => exact absurd hh hne
        | cons a b =>
          have ha : isDigitChar a = true := hdig a (by rw [hh]; simp)
          obtain ⟨-, -, -, -, hq, hbr, hbc⟩ := digit_not_special a ha
          rw [show serJson ind (Json.num n) ++ rest = a :: (b ++ rest) by
            simp [serJson, hh]]
          rw [parseJsonValue_digit fuel a _ hq hbr hbc ha]
          rw [show a :: (b ++ rest) = natToDigits n ++ rest by simp [hh]]
          rw [parseNumberAt_roundtrip n rest hnd]
          rfl
      | arr l =>
        cases l with
        | nil =>
          rw [show serJson ind (Json.arr JsonList.nil) ++ rest = '[' :: (']' :: rest) from rfl]
          rw [parseJsonValue_lbracket]
          rw [skipJsonWs_cons_false ']' rest (by decide)]
          rw [if_pos (by simp [listStartsWith])]
          rfl
        | cons x tl =>
          obtain ⟨c0, cs0, hser, hws0, hrb0, hcm0, hbr0⟩ := serElems_cons_head ind x tl
          rw [show serJson ind (Json.arr (JsonList.cons x tl)) ++ rest
              = '[' :: ('\n' :: (indentChars (ind + 1)
                  ++ (serElems ind (JsonList.cons x tl) ++ rest))) by
            simp [serJson, List.append_assoc]]
          rw [parseJsonValue_lbracket]
          have hskip : skipJsonWs ('\n' :: (indentChars (ind + 1)
              ++ (serElems ind (JsonList.cons x tl) ++ rest)))
              = serElems ind (JsonList.cons x tl) ++ rest := by
            rw [skipJsonWs_cons_true '\n' _ (by decide),
              skip_ws_prefix _ _ (indentChars_ws (ind + 1)), hser]
            exact skipJsonWs_cons_false c0 _ hws0
          rw [hskip]
          rw [if_neg (by rw [hser]; simp [listStartsWith, hrb0])]
          rw [ihE ind (JsonList.cons x tl) rest
            (by simp only [jsonSizeJ] at hsz; omega)
            (fun hcon => JsonList.noConfusion hcon)]
          rfl
      | obj f =>
        cases f with
        | nil =>
          rw [show serJson ind (Json.obj JsonFields.nil) ++ rest
              = '\x7b' :: ('\x7d' :: rest) from rfl]
          rw [parseJsonValue_lbrace]
          rw [skipJsonWs_cons_false '\x7d' rest (by decide)]
          rw [if_pos (by simp [listStartsWith])]
          rfl
        | cons k v tl =>
          obtain ⟨cs0, hser⟩ := serFields_cons_head ind k v tl
          rw [show serJson ind (Json.obj (JsonFields.cons k v tl)) ++ rest
              = '\x7b' :: ('\n' :: (indentChars (ind + 1)
                  ++ (serFields ind (JsonFields.cons k v tl) ++ rest))) by
            simp [serJson, List.append_assoc]]
          rw [parseJsonValue_lbrace]
          have hskip : skipJsonWs ('\n' :: (indentChars (ind + 1)
              ++ (serFields ind (JsonFields.cons k v tl) ++ rest)))
              = serFields ind (JsonFields.cons k v tl) ++ rest := by
            rw [skipJsonWs_cons_true '\n' _ (by decide),
              skip_ws_prefix _ _ (indentChars_ws (ind + 1)), hser]
            exact skipJsonWs_cons_false '"' _ (by decide)
          rw [hskip]
          rw [if_neg (by rw [hser]; simp [listStartsWith])]
          rw [ihF ind (JsonFields.cons k v tl) rest
            (by simp only [jsonSizeJ] at hsz; omega)
            (fun hcon => JsonFields.noConfusion hcon)]
          rfl
    · intro ind l rest hsz hne
      cases l with
      | nil => exact absurd rfl hne
      | cons x tl =>
        cases tl with
        | nil =>
          have hx : parseJsonValue fuel (serJson (ind + 1) x
              ++ ('\n' :: (indentChars ind ++ (']' :: rest))))
              = some (x, '\n' :: (indentChars ind ++ (']' :: rest))) := by
            refine ihV (ind + 1) x _ ?_ rfl
            simp only [jsonSizeL] at hsz
            omega
          rw [show serElems ind (JsonList.cons x JsonList.nil) ++ rest
              = serJson (ind + 1) x ++ ('\n' :: (indentChars ind ++ (']' :: rest))) by
            simp [serElems, List.append_assoc]]
          rw [parseJsonElems_step fuel _ x _ hx]
          have hskip : skipJsonWs ('\n' :: (indentChars ind ++ (']' :: rest)))
              = ']' :: rest := by
            rw [skipJsonWs_cons_true '\n' _ (by decide),
              skip_ws_prefix _ _ (indentChars_ws ind)]
            exact skipJsonWs_cons_false ']' _ (by decide)
          rw [hskip]
          rw [if_neg (by simp [listStartsWith])]
          rw [if_pos (by simp [listStartsWith])]
          rfl
        | cons y tl2 =>
          obtain ⟨c0, cs0, hser, hws0, hrb0, hcm0, hbr0⟩ := serElems_cons_head ind y tl2
          have hx : parseJsonValue fuel (serJson (ind + 1) x
              ++ (',' :: '\n' :: (indentChars (ind + 1)
                  ++ (serElems ind (JsonList.cons y tl2) ++ rest))))
              = some (x, ',' :: '\n' :: (indentChars (ind + 1)
                  ++ (serElems ind (JsonList.cons y tl2) ++ rest))) := by
            refine ihV (ind + 1) x _ ?_ rfl
            simp only [jsonSizeL] at hsz
            omega
          rw [show serElems ind (JsonList.cons x (JsonList.cons y tl2)) ++ rest
              = serJson (ind + 1) x ++ (',' :: '\n' :: (indentChars (ind + 1)
                  ++ (serElems ind (JsonList.cons y tl2) ++ rest))) by
            simp [serElems, List.append_assoc]]
          rw [parseJsonElems_step fuel _ x _ hx]
          rw [skipJsonWs_cons_false ',' _ (by decide)]
          rw [if_pos (by simp [listStartsWith])]
          have hskip : skipJsonWs ((',' :: '\n' :: (indentChars (ind + 1)
              ++ (serElems ind (JsonList.cons y tl2) ++ rest))).drop 1)
              = serElems ind (JsonList.cons y tl2) ++ rest := by
            rw [show ((',' :: '\n' :: (indentChars (ind + 1)
                ++ (serElems ind (JsonList.cons y tl2) ++ rest))).drop 1)
                = '\n' :: (indentChars (ind + 1)
                  ++ (serElems ind (JsonList.cons y tl2) ++ rest)) from rfl]
            rw [skipJsonWs_cons_true '\n' _ (by decide),
              skip_ws_prefix _ _ (indentChars_ws (ind + 1)), hser]
            exact skipJsonWs_cons_false c0 _ hws0
          rw [hskip]
          rw [ihE ind (JsonList.cons y tl2) rest
            (by simp only [jsonSizeL] at hsz ⊢; omega)
            (fun hcon => JsonList.noConfusion hcon)]
          rfl
    · intro ind f rest hsz hne
      cases f with
      | nil => exact absurd rfl hne
      | cons k v tl =>
        cases tl with
        | nil =>
          have hv : parseJsonValue fuel (serJson (ind + 1) v
              ++ ('\n' :: (indentChars ind ++ ('\x7d' :: rest))))
              = some (v, '\n' :: (indentChars ind ++ ('\x7d' :: rest))) := by
            refine ihV (ind + 1) v _ ?_ rfl
            simp only [jsonSizeF] at hsz
            omega
          have hform : serFields ind (JsonFields.cons k v JsonFields.nil) ++ rest
              = '"' :: ((escapeStr k ++ '"' :: (':' :: ' ' :: (serJson (ind + 1) v
                  ++ ('\n' :: (indentChars ind ++ ('\x7d' :: rest))))))) := by
            simp [serFields, quoteStr, List.append_assoc]
          rw [hform]
          rw [parseJsonFields_step fuel _ k
              (':' :: ' ' :: (serJson (ind + 1) v
                ++ ('\n' :: (indentChars ind ++ ('\x7d' :: rest)))))
              (by simp [listStartsWith])
              (by rw [show (('"' :: ((escapeStr k ++ '"' :: (':' :: ' ' :: (serJson (ind + 1) v
                    ++ ('\n' :: (indentChars ind ++ ('\x7d' :: rest)))))))).drop 1)
                  = escapeStr k ++ '"' :: (':' :: ' ' :: (serJson (ind + 1) v
                    ++ ('\n' :: (indentChars ind ++ ('\x7d' :: rest))))) from rfl]
                  exact parseStringBody_escape k _)
              (by rw [skipJsonWs_cons_false ':' _ (by decide)]; simp [listStartsWith])
              v _
              (by rw [skipJsonWs_cons_false ':' _ (by decide)]
                  rw [show ((':' :: ' ' :: (serJson (ind + 1) v
                      ++ ('\n' :: (indentChars ind ++ ('\x7d' :: rest))))).drop 1)
                    = ' ' :: (serJson (ind + 1) v
                      ++ ('\n' :: (indentChars ind ++ ('\x7d' :: rest)))) from rfl]
                  rw [skipJsonWs_cons_true ' ' _ (by decide)]
                  obtain ⟨c1, cs1, hser1, hws1, -, -, -⟩ := serJson_head (ind + 1) v
                  rw [hser1, List.cons_append, skipJsonWs_cons_false c1 _ hws1,
                    ← List.cons_append, ← hser1]
                  exact hv)]
          have hskip : skipJsonWs ('\n' :: (indentChars ind ++ ('\x7d' :: rest)))
              = '\x7d' :: rest := by
            rw [skipJsonWs_cons_true '\n' _ (by decide),
              skip_ws_prefix _ _ (indentChars_ws ind)]
            exact skipJsonWs_cons_false '\x7d' _ (by decide)
          rw [hskip]
          rw [if_neg (by simp [listStartsWith])]
          rw [if_pos (by simp [listStartsWith])]
          rfl
        | cons k2 v2 tl2 =>
          obtain ⟨cs0, hser⟩ := serFields_cons_head ind k2 v2 tl2
          have hv : parseJsonValue fuel (serJson (ind + 1) v
              ++ (',' :: '\n' :: (indentChars (ind + 1)
                  ++ (serFields ind (JsonFields.cons k2 v2 tl2) ++ rest))))
              = some (v, ',' :: '\n' :: (indentChars (ind + 1)
                  ++ (serFields ind (JsonFields.cons k2 v2 tl2) ++ rest))) := by
            refine ihV (ind + 1) v _ ?_ rfl
            simp only [jsonSizeF] at hsz
            omega
          have hform : serFields ind (JsonFields.cons k v (JsonFields.cons k2 v2 tl2)) ++ rest
              = '"' :: ((escapeStr k ++ '"' :: (':' :: ' ' :: (serJson (ind + 1) v
                  ++ (',' :: '\n' :: (indentChars (ind + 1)
                    ++ (serFields ind (JsonFields.cons k2 v2 tl2) ++ rest))))))) := by
            simp [serFields, quoteStr, List.append_assoc]
          rw [hform]
          rw [parseJsonFields_step fuel _ k
              (':' :: ' ' :: (serJson (ind + 1) v
                ++ (',' :: '\n' :: (indentChars (ind + 1)
                  ++ (serFields ind (JsonFields.cons k2 v2 tl2) ++ rest)))))
              (by simp [listStartsWith])
              (by rw [show (('"' :: ((escapeStr k ++ '"' :: (':' :: ' ' :: (serJson (ind + 1) v
                    ++ (',' :: '\n' :: (indentChars (ind + 1)
                      ++ (serFields ind (JsonFields.cons k2 v2 tl2) ++ rest)))))))).drop 1)
                  = escapeStr k ++ '"' :: (':' :: ' ' :: (serJson (ind + 1) v
                    ++ (',' :: '\n' :: (indentChars (ind + 1)
                      ++ (serFields ind (JsonFields.cons k2 v2 tl2) ++ rest))))) from rfl]
                  exact parseStringBody_escape k _)
              (by rw [skipJsonWs_cons_false ':' _ (by decide)]; simp [listStartsWith])
              v _
              (by rw [skipJsonWs_cons_false ':' _ (by decide)]
                  rw [show ((':' :: ' ' :: (serJson (ind + 1) v
                      ++ (',' :: '\n' :: (indentChars (ind + 1)
                        ++ (serFields ind (JsonFields.cons k2 v2 tl2) ++ rest))))).drop 1)
                    = ' ' :: (serJson (ind + 1) v
                      ++ (',' :: '\n' :: (indentChars (ind + 1)
                        ++ (serFields ind (JsonFields.cons k2 v2 tl2) ++ rest)))) from rfl]
                  rw [skipJsonWs_cons_true ' ' _ (by decide)]
                  obtain ⟨c1, cs1, hser1, hws1, -, -, -⟩ := serJson_head (ind + 1) v
                  rw [hser1, List.cons_append, skipJsonWs_cons_false c1 _ hws1,
                    ← List.cons_append, ← hser1]
                  exact hv)]
          rw [skipJsonWs_cons_false ',' _ (by decide)]
          rw [if_pos (by simp [listStartsWith])]
          have hskip : skipJsonWs ((',' :: '\n' :: (indentChars (ind + 1)
              ++ (serFields ind (JsonFields.cons k2 v2 tl2) ++ rest))).drop 1)
              = serFields ind (JsonFields.cons k2 v2 tl2) ++ rest := by
            rw [show ((',' :: '\n' :: (indentChars (ind + 1)
                ++ (serFields ind (JsonFields.cons k2 v2 tl2) ++ rest))).drop 1)
                = '\n' :: (indentChars (ind + 1)
                  ++ (serFields ind (JsonFields.cons k2 v2 tl2) ++ rest)) from rfl]
            rw [skipJsonWs_cons_true '\n' _ (by decide),
              skip_ws_prefix _ _ (indentChars_ws (ind + 1)), hser]
            exact skipJsonWs_cons_false '"' _ (by decide)
          rw [hskip]
          rw [ihF ind (JsonFields.cons k2 v2 tl2) rest
            (by simp only [jsonSizeF] at hsz ⊢; omega)
            (fun hcon => JsonFields.noConfusion hcon)]
          rfl

theorem decodeComment_encode (c : ReviewComment) :
    decodeComment (encodeComment c) = some c := by
  obtain ⟨cid, p, n, b, sev, sug⟩ := c
  cases cid <;> cases sug <;> cases sev <;> rfl

theorem decodeSuggestion_encode (s : CodeSuggestion) :
    decodeSuggestion (encodeSuggestion s) = some s := by
  obtain ⟨p, n, oc, nc, d⟩ := s
  rfl

theorem decodeComments_encode (l : List ReviewComment) :
    decodeComments (encodeComments l) = some l := by
  induction l with
  | nil => rfl
  | cons c t ih => simp [encodeComments, decodeComments, decodeComment_encode, ih]

theorem decodeSuggestions_encode (l : List CodeSuggestion) :
    decodeSuggestions (encodeSuggestions l) = some l := by
  induction l with
  | nil => rfl
  | cons s t ih => simp [encodeSuggestions, decodeSuggestions, decodeSuggestion_encode, ih]

theorem decodeReviewResult_encode (r : ReviewResult) :
    decodeReviewResult (encodeReviewResult r) = some r := by
  obtain ⟨sm, cs, sg, v⟩ := r
  have h1 := decodeComments_encode cs
  have h2 := decodeSuggestions_encode sg
  cases v <;>
    simp +decide [encodeReviewResult, decodeReviewResult, lookupField, h1, h2,
      encodeVerdict, decodeVerdict]

/-- C9: for every `ReviewResult r`, formatting `r` with the JSON formatter
(`JsonFormatter.format`, i.e. `JSON.stringify(result, null, 2)`) and then
parsing the resulting string back as JSON and decoding its fields yields
exactly `r`: the structured-data output format round-trips. -/
theorem JsonFormatter.format_parse_roundtrip (r : ReviewResult) :
    parseReviewResultJson (JsonFormatter.format r) = some r := by
  have hsz : jsonSizeJ (encodeReviewResult r)
      < (serJson 0 (encodeReviewResult r)).length + 1 :=
    Nat.lt_succ_of_le (sizeJ_le_ser 0 (encodeReviewResult r))
  have hmain : parseJsonValue ((serJson 0 (encodeReviewResult r)).length + 1)
      (serJson 0 (encodeReviewResult r) ++ [])
      = some (encodeReviewResult r, []) :=
    (parse_ser _).1 0 (encodeReviewResult r) [] hsz rfl
  rw [List.append_nil] at hmain
  have hskip : skipJsonWs (serJson 0 (encodeReviewResult r))
      = serJson 0 (encodeReviewResult r) := by
    obtain ⟨c1, cs1, hser1, hws1, -, -, -⟩ := serJson_head 0 (encodeReviewResult r)
    rw [hser1]
    exact skipJsonWs_cons_false c1 _ hws1
  unfold parseReviewResultJson JsonFormatter.format
  rw [hskip, hmain]
  simp [skipJsonWs, decodeReviewResult_encode r]
